import Mathlib

/-!
Verification of the deterministic transformation substrate of the ASE system:
the three-tier patch engine (`core/patcher.py`), dependency-graph import
resolution (`core/graph.py`), the definition-deletion engines
(`core/ast_patcher.py`, `core/cst_patcher.py`), the fuzzy file resolver
(`core/planner/utils.py`) and the strategy dispatcher (`core/worker/`).

Text is embedded as `List Char` (`Str`); Python string primitives
(`find`, `rfind`, `split`, `strip`, `splitlines`, slicing) are implemented
faithfully below.  Line splitting models the `\n` terminator, the only one
occurring in the texts the system manipulates.
-/

set_option maxHeartbeats 2000000
set_option linter.unusedVariables false

abbrev Str := List Char

/-- The whitespace characters removed by Python `str.strip()`. -/
def isPyWs (c : Char) : Bool :=
  c = ' ' || c = '\t' || c = '\n' || c = '\r' || c = '\x0b' || c = '\x0c'

/-- Python `s.strip()`. -/
def pyStrip (s : Str) : Str :=
  ((s.dropWhile isPyWs).reverse.dropWhile isPyWs).reverse

/-- Python `s.strip(c)` for a single character `c`. -/
def stripCharBoth (c : Char) (s : Str) : Str :=
  ((s.dropWhile (· = c)).reverse.dropWhile (· = c)).reverse

/-- Helper for `findSub`: first index `≥ i` (in the original string) at which
`needle` occurs, scanning `s`, the suffix beginning at `i`. -/
def findSubAux (needle : Str) : Str → Nat → Option Nat
  | [], i => if needle = [] then some i else none
  | c :: rest, i =>
      if needle.isPrefixOf (c :: rest) then some i
      else findSubAux needle rest (i + 1)

/-- Python `hay.find(needle)`, as `Option` (Python returns `-1` for `none`). -/
def findSub (hay needle : Str) : Option Nat :=
  findSubAux needle hay 0

/-- Python `hay.find(needle, start)` for a nonempty needle. -/
def findSubFrom (hay needle : Str) (start : Nat) : Option Nat :=
  (findSubAux needle (hay.drop start) 0).map (· + start)

/-- Python `hay.rfind(c)`: index of the last occurrence of character `c`. -/
def rfindChar : Str → Char → Option Nat
  | [], _ => none
  | a :: rest, c =>
      match rfindChar rest c with
      | some j => some (j + 1)
      | none => if a = c then some 0 else none

/-- Python `needle in hay`. -/
def containsSub (hay needle : Str) : Bool :=
  (findSub hay needle).isSome

theorem findSubAux_ge (needle : Str) :
    ∀ (s : Str) (i j : Nat), findSubAux needle s i = some j → i ≤ j := by
  intro s
  induction s with
  | nil =>
      intro i j h
      by_cases hn : needle = [] <;> simp [findSubAux, hn] at h
      omega
  | cons c rest ih =>
      intro i j h
      by_cases hp : needle.isPrefixOf (c :: rest)
      · simp [findSubAux, hp] at h; omega
      · simp [findSubAux, hp] at h
        have := ih (i + 1) j h
        omega

theorem findSub_nil (sep : Str) (hs : sep ≠ []) : findSub [] sep = none := by
  simp [findSub, findSubAux, hs]

theorem findSub_bound (hay sep : Str) (i : Nat) (hs : sep ≠ [])
    (h : findSub hay sep = some i) : hay ≠ [] := by
  rintro rfl
  rw [findSub_nil sep hs] at h
  exact Option.noConfusion h

/-- Fuel-driven worker for `pySplit` (structural recursion so that the
kernel can evaluate it; the fuel is always sufficient). -/
def pySplitF (sep : Str) : Nat → Str → List Str
  | 0, hay => [hay]
  | fuel + 1, hay =>
      match findSub hay sep with
      | none => [hay]
      | some i => hay.take i :: pySplitF sep fuel (hay.drop (i + sep.length))

/-- Python `hay.split(sep)` for a nonempty separator (full split). -/
def pySplit (hay sep : Str) : List Str :=
  if sep = [] then [hay] else pySplitF sep (hay.length + 1) hay

theorem pySplitF_fuel (sep : Str) (hs : sep ≠ []) :
    ∀ (fuel fuel' : Nat) (hay : Str), hay.length < fuel → hay.length < fuel' →
      pySplitF sep fuel hay = pySplitF sep fuel' hay := by
  intro fuel
  induction fuel with
  | zero => intro fuel' hay h1; omega
  | succ f ih =>
      intro fuel' hay h1 h2
      cases fuel' with
      | zero => omega
      | succ f' =>
          simp only [pySplitF]
          cases h : findSub hay sep with
          | none => rfl
          | some i =>
              have hne : hay ≠ [] := findSub_bound hay sep i hs h
              have hlen : 0 < hay.length := List.length_pos.mpr hne
              have hsep : 0 < sep.length := List.length_pos.mpr hs
              have hd : (hay.drop (i + sep.length)).length < hay.length := by
                simp only [List.length_drop]; omega
              dsimp only
              rw [ih f' (hay.drop (i + sep.length)) (by omega) (by omega)]

/-- The recursion equation of Python `split`: peel one separator occurrence. -/
theorem pySplit_eq (hay sep : Str) (hs : sep ≠ []) :
    pySplit hay sep =
      match findSub hay sep with
      | none => [hay]
      | some i => hay.take i :: pySplit (hay.drop (i + sep.length)) sep := by
  simp only [pySplit, if_neg hs, pySplitF]
  cases h : findSub hay sep with
  | none => rfl
  | some i =>
      have hne : hay ≠ [] := findSub_bound hay sep i hs h
      have hlen : 0 < hay.length := List.length_pos.mpr hne
      have hsep : 0 < sep.length := List.length_pos.mpr hs
      have hd : (hay.drop (i + sep.length)).length < hay.length := by
        simp only [List.length_drop]; omega
      dsimp only
      rw [pySplitF_fuel sep hs hay.length ((hay.drop (i + sep.length)).length + 1)
        (hay.drop (i + sep.length)) (by omega) (by omega)]
      rfl

/-- Fuel-driven worker for `replaceAll`. -/
def replaceAllF (old new : Str) : Nat → Str → Str
  | 0, s => s
  | fuel + 1, s =>
      match findSub s old with
      | none => s
      | some i => s.take i ++ new ++ replaceAllF old new fuel (s.drop (i + old.length))

/-- Python `s.replace(old, new)` (all occurrences), nonempty `old`. -/
def replaceAll (s old new : Str) : Str :=
  if old = [] then s else replaceAllF old new (s.length + 1) s

/-- Python `s.replace(old, new, 1)`. -/
def replaceFirst (s old new : Str) : Str :=
  match findSub s old with
  | none => s
  | some i => s.take i ++ new ++ s.drop (i + old.length)

/-- Python `s[a:b]` for `0 ≤ a ≤ b` (empty when `b ≤ a`). -/
def sliceStr (s : Str) (a b : Nat) : Str :=
  (s.drop a).take (b - a)

/-- Python `s.splitlines()` restricted to the `\n` terminator. -/
def pySplitLines (s : Str) : List Str :=
  if s = [] then []
  else
    let parts := pySplit s ['\n']
    if parts.getLast? = some [] then parts.dropLast else parts

/-- Join lines with `\n` (Python `"\n".join(lines)`). -/
def joinNl (lines : List Str) : Str :=
  List.intercalate ['\n'] lines

-- ======================================================================
-- core/patcher.py : the three-tier patch engine
-- ======================================================================

def searchMarker : Str := "<<<<<<< SEARCH\n".toList

def midMarkerNl : Str := "=======\n".toList

def endMarker7 : Str := ">>>>>>>".toList

def midSplit : Str := "\n=======\n".toList

def endSplit : Str := "\n>>>>>>>".toList

def ellipsisTok : Str := "<ELLIPSIS>".toList

def fenceTok : Str := "```".toList

/-- Parse one raw block (the text following a `<<<<<<< SEARCH\n` marker) into
its search and replace fragments, both stripped of outer newlines; `none`
models the `continue` taken on the malformed-block guard or on the
`ValueError` of a failed unpacking split. -/
def parseBlock (block : Str) : Option (Str × Str) :=
  if containsSub block midMarkerNl && containsSub block endMarker7 then
    match findSub block midSplit with
    | none => none
    | some i =>
      let search := sliceStr block 0 i
      let rest := block.drop (i + midSplit.length)
      match findSub rest endSplit with
      | none => none
      | some j =>
        some (stripCharBoth '\n' search, stripCharBoth '\n' (rest.take j))
  else none

/-- Indentation weight of `modified_code[line_start:start_idx]`: every space
counts 1 and every tab counts 4; other characters are skipped (the Python
loop has no `break`). -/
def prefixIndentWeight (s : Str) : Nat :=
  s.foldl (fun acc c => if c = ' ' then acc + 1 else if c = '\t' then acc + 4 else acc) 0

/-- Leading-indentation weight of a line: spaces count 1, tabs count 4, and
the scan stops at the first other character (the Python loop `break`s). -/
def leadIndentWeight : Str → Nat
  | [] => 0
  | c :: rest =>
      if c = ' ' then 1 + leadIndentWeight rest
      else if c = '\t' then 4 + leadIndentWeight rest
      else 0

theorem findSubFrom_ge (hay needle : Str) (start j : Nat)
    (h : findSubFrom hay needle start = some j) : start ≤ j := by
  simp only [findSubFrom, Option.map_eq_some'] at h
  obtain ⟨k, -, rfl⟩ := h
  omega

/-- Fuel-driven worker for `findBlockEnd`. -/
def findBlockEndF (code : Str) (tgt : Nat) : Nat → Nat → Nat
  | 0, curr => curr
  | fuel + 1, curr =>
      if curr < code.length then
        let nle := (findSubFrom code ['\n'] curr).getD code.length
        let line := sliceStr code curr nle
        if (pyStrip line).isEmpty then findBlockEndF code tgt fuel (nle + 1)
        else if leadIndentWeight line ≤ tgt then curr
        else findBlockEndF code tgt fuel (nle + 1)
      else curr

/-- The indentation-based scan of the Smart Delete strategy: starting at
`curr`, skip blank lines and lines more indented than `tgt`; return the
start position of the first other line (or run past the end). -/
def findBlockEnd (code : Str) (tgt curr : Nat) : Nat :=
  findBlockEndF code tgt (code.length + 1) curr

theorem nextLineEnd_ge (code : Str) (curr : Nat) (h : curr ≤ code.length) :
    curr ≤ (findSubFrom code ['\n'] curr).getD code.length := by
  cases hf : findSubFrom code ['\n'] curr with
  | none => simpa using h
  | some j => simpa using findSubFrom_ge code ['\n'] curr j hf

theorem findBlockEndF_fuel (code : Str) (tgt : Nat) :
    ∀ (fuel fuel' curr : Nat), code.length < curr + fuel → code.length < curr + fuel' →
      findBlockEndF code tgt fuel curr = findBlockEndF code tgt fuel' curr := by
  intro fuel
  induction fuel with
  | zero =>
      intro fuel' curr h1 h2
      have hc : ¬ curr < code.length := by omega
      cases fuel' with
      | zero => rfl
      | succ f' => simp only [findBlockEndF, if_neg hc]
  | succ f ih =>
      intro fuel' curr h1 h2
      cases fuel' with
      | zero =>
          have hc : ¬ curr < code.length := by omega
          simp only [findBlockEndF, if_neg hc]
      | succ f' =>
          simp only [findBlockEndF]
          by_cases hc : curr < code.length
          · simp only [if_pos hc]
            have hge : curr ≤ (findSubFrom code ['\n'] curr).getD code.length :=
              nextLineEnd_ge code curr (Nat.le_of_lt hc)
            split
            · exact ih f' _ (by omega) (by omega)
            · split
              · rfl
              · exact ih f' _ (by omega) (by omega)
          · simp only [if_neg hc]

/-- The recursion equation of the indentation scan. -/
theorem findBlockEnd_eq (code : Str) (tgt curr : Nat) :
    findBlockEnd code tgt curr =
      if curr < code.length then
        let nle := (findSubFrom code ['\n'] curr).getD code.length
        let line := sliceStr code curr nle
        if (pyStrip line).isEmpty then findBlockEnd code tgt (nle + 1)
        else if leadIndentWeight line ≤ tgt then curr
        else findBlockEnd code tgt (nle + 1)
      else curr := by
  simp only [findBlockEnd]
  conv_lhs => rw [findBlockEndF]
  by_cases hc : curr < code.length
  · simp only [if_pos hc]
    have hge : curr ≤ (findSubFrom code ['\n'] curr).getD code.length :=
      nextLineEnd_ge code curr (Nat.le_of_lt hc)
    split
    · exact findBlockEndF_fuel code tgt _ _ _ (by omega) (by omega)
    · split
      · rfl
      · exact findBlockEndF_fuel code tgt _ _ _ (by omega) (by omega)
  · simp only [if_neg hc]

/-- Strategy 1 of `apply_patches_robust`: Smart Delete via `<ELLIPSIS>`. -/
def smartDelete (code search repl : Str) : Option Str :=
  let signature := pyStrip (replaceAll search ellipsisTok [])
  match findSub code signature with
  | none => none
  | some start_idx =>
    let line_start :=
      match rfindChar (code.take start_idx) '\n' with
      | some j => j + 1
      | none => 0
    let line_end := (findSubFrom code ['\n'] start_idx).getD code.length
    let tgt := prefixIndentWeight (sliceStr code line_start start_idx)
    let e := findBlockEnd code tgt (line_end + 1)
    some (code.take line_start ++ repl ++ code.drop e)

/-- `_apply_soft_match`: whitespace-insensitive line-by-line matching. -/
def softMatch (fullText search repl : Str) : Option Str :=
  let searchLines := ((pySplitLines search).map pyStrip).filter (fun l => !l.isEmpty)
  let textLines := pySplitLines fullText
  if searchLines.isEmpty then none
  else
    match (List.range (textLines.length + 1 - searchLines.length)).find? (fun i =>
        (List.range searchLines.length).all (fun j =>
          pyStrip (textLines.getD (i + j) []) = searchLines.getD j [])) with
    | none => none
    | some i =>
      let pre := joinNl (textLines.take i)
      let post := joinNl (textLines.drop (i + searchLines.length))
      some (pre ++ '\n' :: repl ++ '\n' :: post)

/-- Apply one parsed block to the current code: Smart Delete when the search
fragment carries `<ELLIPSIS>` (no fall-through on its failure), else exact
substring replacement, else soft match. -/
def applyBlock (code search repl : Str) : Option Str :=
  if containsSub search ellipsisTok then smartDelete code search repl
  else if containsSub code search then some (replaceFirst code search repl)
  else softMatch code search repl

/-- Fold all raw blocks over the code, counting the blocks that applied;
failed blocks are skipped. -/
def processBlocks (code : Str) (blocks : List Str) : Str × Nat :=
  blocks.foldl
    (fun st block =>
      match parseBlock block with
      | none => st
      | some (s, r) =>
        match applyBlock st.1 s r with
        | none => st
        | some c => (c, st.2 + 1))
    (code, 0)

/-- The markdown-fence preprocessing at the top of `apply_patches_robust`. -/
def stripFences (patch : Str) : Str :=
  if containsSub patch fenceTok then (pySplit patch fenceTok).getD 1 [] else patch

/-- `apply_patches_robust` (loop bookkeeping and artifact saving omitted:
they do not affect the returned text or the raised error). -/
def apply_patches_robust (original patch : Str) : Except String Str :=
  let p := stripFences patch
  let blocks := pySplit p searchMarker
  let res := processBlocks original blocks.tail
  if res.2 = 0 ∧ 1 < blocks.length then
    .error "Failed to apply patches: No blocks matched."
  else .ok res.1

theorem pySplitF_ne_nil (sep : Str) (fuel : Nat) (hay : Str) :
    pySplitF sep fuel hay ≠ [] := by
  cases fuel with
  | zero => simp [pySplitF]
  | succ f =>
      simp only [pySplitF]
      cases findSub hay sep <;> simp

theorem pySplit_ne_nil (hay sep : Str) : pySplit hay sep ≠ [] := by
  rw [pySplit]
  split
  · simp
  · exact pySplitF_ne_nil sep (hay.length + 1) hay

theorem containsSub_iff_one_lt_split (hay sep : Str) (hs : sep ≠ []) :
    containsSub hay sep = true ↔ 1 < (pySplit hay sep).length := by
  rw [containsSub, pySplit_eq hay sep hs]
  cases h : findSub hay sep with
  | none => simp
  | some i =>
      simp only [Option.isSome_some, List.length_cons, true_iff]
      have := pySplit_ne_nil (hay.drop (i + sep.length)) sep
      have := List.length_pos.mpr this
      omega

/-- **C1.** `apply_patches_robust` raises (returns its `ValueError`) exactly
when the effective patch text contains at least one `<<<<<<< SEARCH` block
and none of the blocks could be applied; as soon as at least one block
applies, the call instead returns the partially patched text produced by the
block fold, failed blocks having been skipped. -/
theorem apply_patches_robust_error_iff (original patch : Str) :
    (apply_patches_robust original patch =
        .error "Failed to apply patches: No blocks matched." ↔
      containsSub (stripFences patch) searchMarker = true ∧
        (processBlocks original ((pySplit (stripFences patch) searchMarker).tail)).2 = 0) ∧
    (0 < (processBlocks original ((pySplit (stripFences patch) searchMarker).tail)).2 →
      apply_patches_robust original patch =
        .ok (processBlocks original ((pySplit (stripFences patch) searchMarker).tail)).1) := by
  have hmark : searchMarker ≠ [] := by decide
  have hiff := containsSub_iff_one_lt_split (stripFences patch) searchMarker hmark
  constructor
  · unfold apply_patches_robust
    by_cases h : (processBlocks original ((pySplit (stripFences patch) searchMarker).tail)).2 = 0 ∧
        1 < (pySplit (stripFences patch) searchMarker).length
    · rw [if_pos h]
      simp only [true_iff]
      exact ⟨hiff.mpr h.2, h.1⟩
    · rw [if_neg h]
      simp only [reduceCtorEq, false_iff, not_and]
      intro hc hz
      exact h ⟨hz, hiff.mp hc⟩
  · intro hpos
    unfold apply_patches_robust
    rw [if_neg (by intro hc; omega)]

def c1orig : Str := "hello world".toList

def c1patch : Str :=
  "<<<<<<< SEARCH\nhello\n=======\ngoodbye\n>>>>>>> REPLACE\n<<<<<<< SEARCH\nmissing\n=======\nx\n>>>>>>> REPLACE".toList

/-- Witness for C1: a two-block patch whose first block applies and whose
second fails; the call returns the partially patched text. -/
theorem apply_patches_robust_error_iff_witness :
    apply_patches_robust c1orig c1patch =
      .ok (processBlocks c1orig ((pySplit (stripFences c1patch) searchMarker).tail)).1 :=
  (apply_patches_robust_error_iff c1orig c1patch).2 (by decide)

theorem findSubAux_singleton_none (c : Char) :
    ∀ (s : Str) (i : Nat), c ∉ s → findSubAux [c] s i = none := by
  intro s
  induction s with
  | nil => intro i h; simp [findSubAux]
  | cons a rest ih =>
      intro i h
      simp only [List.mem_cons, not_or] at h
      have ha : ¬ (List.isPrefixOf [c] (a :: rest) = true) := by
        simp [List.isPrefixOf]
        exact h.1
      simp only [findSubAux, if_neg ha]
      exact ih (i + 1) h.2

theorem findSubAux_singleton_eq (c : Char) :
    ∀ (content Z : Str) (i : Nat), c ∉ content →
      findSubAux [c] (content ++ c :: Z) i = some (i + content.length) := by
  intro content
  induction content with
  | nil =>
      intro Z i h
      have : List.isPrefixOf [c] (c :: Z) = true := by simp [List.isPrefixOf]
      simp [findSubAux, this]
  | cons a rest ih =>
      intro Z i h
      simp only [List.mem_cons, not_or] at h
      have ha : ¬ (List.isPrefixOf [c] (a :: (rest ++ c :: Z)) = true) := by
        simp [List.isPrefixOf]
        exact h.1
      have hsh : (a :: rest) ++ c :: Z = a :: (rest ++ c :: Z) := rfl
      rw [hsh]
      simp only [findSubAux, if_neg ha]
      rw [ih Z (i + 1) h.2]
      simp only [List.length_cons]
      congr 1
      omega

theorem findSubFrom_singleton_eq (code : Str) (c : Char) (curr : Nat) (content Z : Str)
    (h : code.drop curr = content ++ c :: Z) (hn : c ∉ content) :
    findSubFrom code [c] curr = some (curr + content.length) := by
  simp only [findSubFrom, h, findSubAux_singleton_eq c content Z 0 hn, Option.map_some']
  congr 1
  omega

theorem findSubFrom_singleton_none (code : Str) (c : Char) (curr : Nat)
    (h : c ∉ code.drop curr) : findSubFrom code [c] curr = none := by
  simp [findSubFrom, findSubAux_singleton_none c _ 0 h]

theorem rfindChar_none (c : Char) : ∀ (s : Str), c ∉ s → rfindChar s c = none := by
  intro s
  induction s with
  | nil => intro h; rfl
  | cons a rest ih =>
      intro h
      simp only [List.mem_cons, not_or] at h
      simp [rfindChar, ih h.2, if_neg (Ne.symm h.1)]

theorem rfindChar_last (c : Char) (X Y : Str) (h : c ∉ Y) :
    rfindChar (X ++ c :: Y) c = some X.length := by
  induction X with
  | nil => simp [rfindChar, rfindChar_none c Y h]
  | cons a rest ih => simp [rfindChar, ih]

/-- Concatenation of body lines, each with its trailing newline. -/
def bodyText (ls : List Str) : Str :=
  (ls.map (fun l => l ++ ['\n'])).flatten

theorem findBlockEnd_skip (code : Str) (tgt curr : Nat) (content Z : Str)
    (h : code.drop curr = content ++ '\n' :: Z)
    (hn : '\n' ∉ content)
    (hskip : (pyStrip content).isEmpty = true ∨ tgt < leadIndentWeight content) :
    findBlockEnd code tgt curr = findBlockEnd code tgt (curr + content.length + 1) := by
  have hlt : curr < code.length := by
    by_contra hc
    push_neg at hc
    have h0 : code.drop curr = [] := List.drop_eq_nil_of_le hc
    rw [h0] at h
    exact absurd h.symm (by simp)
  rw [findBlockEnd_eq]
  simp only [if_pos hlt]
  rw [findSubFrom_singleton_eq code '\n' curr content Z h hn]
  have hline : sliceStr code curr (curr + content.length) = content := by
    simp only [sliceStr, h]
    have he : curr + content.length - curr = content.length := by omega
    rw [he]
    exact List.take_left content ('\n' :: Z)
  simp only [Option.getD_some, hline]
  by_cases hb : (pyStrip content).isEmpty = true
  · rw [if_pos hb]
  · rw [if_neg hb]
    rcases hskip with h' | hi
    · exact absurd h' hb
    · rw [if_neg (by omega)]

theorem findBlockEnd_stop (code : Str) (tgt curr : Nat) (S T : Str)
    (h : code.drop curr = S ++ T)
    (hnS : '\n' ∉ S)
    (hT : T = [] ∨ ∃ T', T = '\n' :: T')
    (hnb : (pyStrip S).isEmpty = false)
    (hind : leadIndentWeight S ≤ tgt) :
    findBlockEnd code tgt curr = curr := by
  have hSne : S ≠ [] := by
    rintro rfl
    simp [pyStrip] at hnb
  have hlt : curr < code.length := by
    by_contra hc
    push_neg at hc
    have h0 : code.drop curr = [] := List.drop_eq_nil_of_le hc
    rw [h0] at h
    rcases S with _ | ⟨a, s⟩
    · exact hSne rfl
    · exact absurd h.symm (by simp)
  rw [findBlockEnd_eq]
  simp only [if_pos hlt]
  have hline : sliceStr code curr ((findSubFrom code ['\n'] curr).getD code.length) = S := by
    rcases hT with rfl | ⟨T', rfl⟩
    · rw [List.append_nil] at h
      rw [findSubFrom_singleton_none code '\n' curr (h ▸ hnS)]
      simp only [Option.getD_none, sliceStr, h]
      have hlen : code.length - curr = S.length := by
        have := congrArg List.length h
        simp only [List.length_drop] at this
        omega
      rw [hlen, List.take_length]
    · rw [findSubFrom_singleton_eq code '\n' curr S T' h hnS]
      simp only [Option.getD_some, sliceStr, h]
      have he : curr + S.length - curr = S.length := by omega
      rw [he]
      exact List.take_left S ('\n' :: T')
  simp only [hline]
  rw [if_neg (by simp [hnb]), if_pos hind]

theorem findBlockEnd_body (code : Str) (tgt : Nat) (S T : Str)
    (hnS : '\n' ∉ S) (hT : T = [] ∨ ∃ T', T = '\n' :: T')
    (hnb : (pyStrip S).isEmpty = false) (hind : leadIndentWeight S ≤ tgt) :
    ∀ (ls : List Str) (curr : Nat),
      (∀ l ∈ ls, '\n' ∉ l ∧ ((pyStrip l).isEmpty = true ∨ tgt < leadIndentWeight l)) →
      code.drop curr = bodyText ls ++ (S ++ T) →
      findBlockEnd code tgt curr = curr + (bodyText ls).length := by
  intro ls
  induction ls with
  | nil =>
      intro curr hl h
      simp only [bodyText, List.map_nil, List.flatten_nil, List.nil_append] at h ⊢
      rw [findBlockEnd_stop code tgt curr S T h hnS hT hnb hind]
      simp
  | cons l ls ih =>
      intro curr hl h
      have hl1 := hl l (List.mem_cons_self l ls)
      have hbt : bodyText (l :: ls) = l ++ '\n' :: bodyText ls := by
        simp [bodyText]
      have h' : code.drop curr = l ++ '\n' :: (bodyText ls ++ (S ++ T)) := by
        rw [h, hbt]
        simp [List.append_assoc]
      rw [findBlockEnd_skip code tgt curr l (bodyText ls ++ (S ++ T)) h' hl1.1 hl1.2]
      have hdrop : code.drop (curr + l.length + 1) = bodyText ls ++ (S ++ T) := by
        have h2 : code.drop (curr + l.length + 1) = (code.drop curr).drop (l.length + 1) := by
          rw [List.drop_drop]
          ring_nf
        rw [h2, h']
        have h3 : l ++ '\n' :: (bodyText ls ++ (S ++ T)) =
            (l ++ ['\n']) ++ (bodyText ls ++ (S ++ T)) := by simp
        rw [h3]
        have h4 : l.length + 1 = (l ++ ['\n']).length := by simp
        rw [h4, List.drop_left]
      rw [ih (curr + l.length + 1) (fun x hx => hl x (List.mem_cons_of_mem _ hx)) hdrop]
      rw [hbt]
      simp only [List.length_append, List.length_cons]
      omega

/-- **C2.** For a target text containing a verbatim occurrence of the
signature line of an elision-marked search block (signature preceded only by
its indentation on that line), Smart Delete replaces the span from the start
of the signature line through the block end — the start of the first
following non-blank line whose indentation is at most the signature's — by
the replacement fragment, and leaves everything from that dedented line
onward (`S ++ T`) unchanged. -/
theorem smartDelete_structural (search repl A sigWs sigText : Str) (body : List Str)
    (S T code : Str)
    (hcode : code = A ++ sigWs ++ sigText ++ '\n' :: (bodyText body ++ (S ++ T)))
    (hmark : containsSub search ellipsisTok = true)
    (hsig : pyStrip (replaceAll search ellipsisTok []) = sigText)
    (hfind : findSub code sigText = some (A.length + sigWs.length))
    (hA : A = [] ∨ ∃ A', A = A' ++ ['\n'])
    (hws : ∀ c ∈ sigWs, c = ' ' ∨ c = '\t')
    (hsx : '\n' ∉ sigText)
    (hbody : ∀ l ∈ body, '\n' ∉ l ∧
      ((pyStrip l).isEmpty = true ∨ prefixIndentWeight sigWs < leadIndentWeight l))
    (hnS : '\n' ∉ S)
    (hT : T = [] ∨ ∃ T', T = '\n' :: T')
    (hnb : (pyStrip S).isEmpty = false)
    (hind : leadIndentWeight S ≤ prefixIndentWeight sigWs) :
    smartDelete code search repl = some (A ++ repl ++ (S ++ T)) := by
  have hwsn : '\n' ∉ sigWs := by
    intro hm
    rcases hws _ hm with h | h <;> exact absurd h (by decide)
  -- the line starts at A.length
  have htake : code.take (A.length + sigWs.length) = A ++ sigWs := by
    rw [hcode]
    have : A ++ sigWs ++ sigText ++ '\n' :: (bodyText body ++ (S ++ T)) =
        (A ++ sigWs) ++ (sigText ++ '\n' :: (bodyText body ++ (S ++ T))) := by
      simp [List.append_assoc]
    rw [this]
    have hlen : A.length + sigWs.length = (A ++ sigWs).length := by simp
    rw [hlen, List.take_left]
  have hlinestart :
      (match rfindChar (code.take (A.length + sigWs.length)) '\n' with
        | some j => j + 1
        | none => 0) = A.length := by
    rw [htake]
    rcases hA with rfl | ⟨A', rfl⟩
    · rw [List.nil_append, rfindChar_none '\n' sigWs hwsn]
      rfl
    · have : (A' ++ ['\n']) ++ sigWs = A' ++ '\n' :: sigWs := by simp
      rw [this, rfindChar_last '\n' A' sigWs hwsn]
      simp
  -- the signature's line ends right after sigText
  have hdrop1 : code.drop (A.length + sigWs.length) =
      sigText ++ '\n' :: (bodyText body ++ (S ++ T)) := by
    rw [hcode]
    have : A ++ sigWs ++ sigText ++ '\n' :: (bodyText body ++ (S ++ T)) =
        (A ++ sigWs) ++ (sigText ++ '\n' :: (bodyText body ++ (S ++ T))) := by
      simp [List.append_assoc]
    rw [this]
    have hlen : A.length + sigWs.length = (A ++ sigWs).length := by simp
    rw [hlen, List.drop_left]
  have hlineend : findSubFrom code ['\n'] (A.length + sigWs.length) =
      some (A.length + sigWs.length + sigText.length) :=
    findSubFrom_singleton_eq code '\n' (A.length + sigWs.length) sigText
      (bodyText body ++ (S ++ T)) hdrop1 hsx
  -- the computed indentation is sigWs's weight
  have hslice : sliceStr code A.length (A.length + sigWs.length) = sigWs := by
    simp only [sliceStr]
    have h1 : code.drop A.length = sigWs ++ (sigText ++ '\n' :: (bodyText body ++ (S ++ T))) := by
      rw [hcode]
      have : A ++ sigWs ++ sigText ++ '\n' :: (bodyText body ++ (S ++ T)) =
          A ++ (sigWs ++ (sigText ++ '\n' :: (bodyText body ++ (S ++ T)))) := by
        simp [List.append_assoc]
      rw [this, List.drop_left]
    rw [h1]
    have he : A.length + sigWs.length - A.length = sigWs.length := by omega
    rw [he]
    exact List.take_left _ _
  -- the body scan ends at the start of the dedented line S
  have hdrop2 : code.drop (A.length + sigWs.length + sigText.length + 1) =
      bodyText body ++ (S ++ T) := by
    rw [hcode]
    have : A ++ sigWs ++ sigText ++ '\n' :: (bodyText body ++ (S ++ T)) =
        (A ++ sigWs ++ sigText ++ ['\n']) ++ (bodyText body ++ (S ++ T)) := by
      simp [List.append_assoc]
    rw [this]
    have hlen : A.length + sigWs.length + sigText.length + 1 =
        (A ++ sigWs ++ sigText ++ ['\n']).length := by
      simp only [List.length_append, List.length_cons, List.length_nil]
    rw [hlen, List.drop_left]
  have hend : findBlockEnd code (prefixIndentWeight sigWs)
      (A.length + sigWs.length + sigText.length + 1) =
      A.length + sigWs.length + sigText.length + 1 + (bodyText body).length :=
    findBlockEnd_body code (prefixIndentWeight sigWs) S T hnS hT hnb hind body
      (A.length + sigWs.length + sigText.length + 1) hbody hdrop2
  -- the retained parts
  have htakeA : code.take A.length = A := by
    rw [hcode]
    have : A ++ sigWs ++ sigText ++ '\n' :: (bodyText body ++ (S ++ T)) =
        A ++ (sigWs ++ (sigText ++ '\n' :: (bodyText body ++ (S ++ T)))) := by
      simp [List.append_assoc]
    rw [this]
    exact List.take_left _ _
  have hdropS : code.drop (A.length + sigWs.length + sigText.length + 1 +
      (bodyText body).length) = S ++ T := by
    rw [hcode]
    have : A ++ sigWs ++ sigText ++ '\n' :: (bodyText body ++ (S ++ T)) =
        (A ++ sigWs ++ sigText ++ ['\n'] ++ bodyText body) ++ (S ++ T) := by
      simp [List.append_assoc]
    rw [this]
    have hlen : A.length + sigWs.length + sigText.length + 1 + (bodyText body).length =
        (A ++ sigWs ++ sigText ++ ['\n'] ++ bodyText body).length := by
      simp only [List.length_append, List.length_cons, List.length_nil]
    rw [hlen, List.drop_left]
  -- assemble
  simp only [smartDelete, hsig, hfind, hlineend, Option.getD_some, hlinestart, hslice,
    hend, htakeA, hdropS]

def c2body : List Str :=
  ["    a = 1".toList, "    b = 2".toList, "    c = 3".toList,
   "    d = 4".toList, "    e = 5".toList]

def c2S : Str := "print(x)".toList

def c2T : Str := ['\n']

def c2sigText : Str := "def foo():".toList

def c2code : Str := [] ++ [] ++ c2sigText ++ '\n' :: (bodyText c2body ++ (c2S ++ c2T))

def c2search : Str := "def foo():\n<ELLIPSIS>".toList

def c2repl : Str := "pass".toList

/-- Witness for C2: eliding a 5-line indented body followed by a sibling at
the signature's indentation replaces exactly the signature line and those 5
lines, leaving the sibling line untouched. -/
theorem smartDelete_structural_witness :
    smartDelete c2code c2search c2repl = some ([] ++ c2repl ++ (c2S ++ c2T)) :=
  smartDelete_structural c2search c2repl [] [] c2sigText c2body c2S c2T c2code
    rfl (by decide) (by decide) (by decide) (Or.inl rfl) (by decide) (by decide)
    (by decide) (by decide) (Or.inr ⟨[], rfl⟩) (by decide) (by decide)

-- ======================================================================
-- core/graph.py : module map, peel-back import resolution, graph builds
-- ======================================================================

/-- `path_str.replace('/', '.').replace('\\', '.')`. -/
def dotify (s : Str) : Str :=
  s.map (fun c => if c = '/' || c = '\\' then '.' else c)

/-- Python `s.endswith(suffixStr)`. -/
def endsWithS (s sfx : Str) : Bool :=
  sfx.isSuffixOf s

/-- Python `s[:-n]` for `n ≤ len(s)`. -/
def dropRightN (s : Str) (n : Nat) : Str :=
  s.take (s.length - n)

/-- Python dict write (last write wins); iteration order is never used. -/
def dictSet (d : List (Str × Str)) (k v : Str) : List (Str × Str) :=
  d.filter (fun p => decide (p.1 ≠ k)) ++ [(k, v)]

/-- Python dict lookup. -/
def dictGet (d : List (Str × Str)) (k : Str) : Option Str :=
  (d.find? (fun p => decide (p.1 = k))).map (·.2)

/-- `_build_module_map`: standard mapping for every `.py` file plus a
package alias for `__init__.py` files. -/
def buildModuleMap (paths : List Str) : List (Str × Str) :=
  paths.foldl
    (fun m path =>
      if endsWithS path ".py".toList then
        let m1 := dictSet m (dotify (dropRightN path 3)) path
        if endsWithS path "__init__.py".toList then
          dictSet m1 (dotify (dropRightN path 12)) path
        else m1
      else m)
    []

def joinDots (parts : List Str) : Str :=
  List.intercalate ['.'] parts

def splitDots (s : Str) : List Str :=
  pySplit s ['.']

/-- The countdown loop of `_resolve_import`: try the prefix of `i` segments,
for `i` from `n` down to `1`. -/
def peelBack (idx : List (Str × Str)) (parts : List Str) : Nat → Option Str
  | 0 => none
  | i + 1 =>
      match dictGet idx (joinDots (parts.take (i + 1))) with
      | some f => some f
      | none => peelBack idx parts i

/-- `_resolve_import`: peel-back resolution of a dotted import string. -/
def resolve_import (idx : List (Str × Str)) (s : Str) : Option Str :=
  peelBack idx (splitDots s) (splitDots s).length

theorem peelBack_none (idx : List (Str × Str)) (parts : List Str) :
    ∀ (n : Nat), (∀ j, 1 ≤ j → j ≤ n → dictGet idx (joinDots (parts.take j)) = none) →
      peelBack idx parts n = none := by
  intro n
  induction n with
  | zero => intro h; rfl
  | succ m ih =>
      intro h
      have h1 : dictGet idx (joinDots (parts.take (m + 1))) = none :=
        h (m + 1) (by omega) (by omega)
      simp only [peelBack, h1]
      exact ih (fun j hj1 hj2 => h j hj1 (by omega))

theorem peelBack_longest (idx : List (Str × Str)) (parts : List Str) (f : Str) :
    ∀ (n i : Nat), 1 ≤ i → i ≤ n →
      dictGet idx (joinDots (parts.take i)) = some f →
      (∀ j, i < j → j ≤ n → dictGet idx (joinDots (parts.take j)) = none) →
      peelBack idx parts n = some f := by
  intro n
  induction n with
  | zero => intro i h1 h2; omega
  | succ m ih =>
      intro i h1 h2 hf hnone
      by_cases hi : i = m + 1
      · subst hi
        simp only [peelBack, hf]
      · have hm : dictGet idx (joinDots (parts.take (m + 1))) = none :=
          hnone (m + 1) (by omega) (by omega)
        simp only [peelBack, hm]
        exact ih i h1 (by omega) hf (fun j hj1 hj2 => hnone j hj1 (by omega))

def c3idx : List (Str × Str) :=
  buildModuleMap ["pkg/mod.py".toList, "pkg/__init__.py".toList]

/-- **C3.** Peel-back resolution returns the file of the longest indexed
dot-prefix, trying prefixes from the full string down to the first segment;
it returns nothing when no prefix is indexed; and resolving
`"pkg.mod.Class"` when both `pkg.mod` and `pkg` are indexed yields
`pkg.mod`'s file, never `pkg`'s. -/
theorem resolve_import_peel_back :
    (∀ (idx : List (Str × Str)) (s f : Str) (i : Nat),
        1 ≤ i → i ≤ (splitDots s).length →
        dictGet idx (joinDots ((splitDots s).take i)) = some f →
        (∀ j, i < j → j ≤ (splitDots s).length →
          dictGet idx (joinDots ((splitDots s).take j)) = none) →
        resolve_import idx s = some f) ∧
    (∀ (idx : List (Str × Str)) (s : Str),
        (∀ j, 1 ≤ j → j ≤ (splitDots s).length →
          dictGet idx (joinDots ((splitDots s).take j)) = none) →
        resolve_import idx s = none) ∧
    resolve_import c3idx "pkg.mod.Class".toList = some "pkg/mod.py".toList := by
  refine ⟨?_, ?_, ?_⟩
  · intro idx s f i h1 h2 hf hnone
    exact peelBack_longest idx (splitDots s) f (splitDots s).length i h1 h2 hf hnone
  · intro idx s h
    exact peelBack_none idx (splitDots s) (splitDots s).length h
  · decide

def dictSetNat (d : List (Nat × Str)) (k : Nat) (v : Str) : List (Nat × Str) :=
  d.filter (fun p => decide (p.1 ≠ k)) ++ [(k, v)]

def dictGetNat (d : List (Nat × Str)) (k : Nat) : Option Str :=
  (d.find? (fun p => decide (p.1 = k))).map (·.2)

/-- `_build_from_database`, restricted to the edge set it produces: rows of
the `files` table are `(id, path)` pairs, rows of the `imports` table are
`(source_file_id, module_name)` pairs.  An edge is added only when
the import resolves and the target differs from the importer (the self-loop
guard); collapsing of duplicate edges by the graph library is irrelevant to
edge membership and is not modelled. -/
def build_from_database_edges (rows imports : List (Nat × Str)) : List (Str × Str) :=
  let idToPath := rows.foldl (fun d r => dictSetNat d r.1 r.2) []
  let m := buildModuleMap (rows.map (·.2))
  imports.foldl
    (fun es imp =>
      match dictGetNat idToPath imp.1 with
      | none => es
      | some importer =>
        match resolve_import m imp.2 with
        | none => es
        | some target => if target ≠ importer then es ++ [(importer, target)] else es)
    []

/-- `_build_from_artifacts`, restricted to the edge set it produces:
artifacts map file paths to their import-string lists. -/
def build_from_artifacts_edges (artifacts : List (Str × List Str)) : List (Str × Str) :=
  let allPaths := artifacts.map (·.1)
  let m := buildModuleMap allPaths
  artifacts.foldl
    (fun es art =>
      if allPaths.contains art.1 then
        art.2.foldl
          (fun es2 imp =>
            match resolve_import m imp with
            | none => es2
            | some target => if target ≠ art.1 then es2 ++ [(art.1, target)] else es2)
          es
      else es)
    []

theorem foldl_preserve {α β : Type} (P : β → Prop) (step : List β → α → List β)
    (hstep : ∀ acc x e, e ∈ step acc x → e ∈ acc ∨ P e) :
    ∀ (l : List α) (acc : List β), (∀ e ∈ acc, P e) → ∀ e ∈ l.foldl step acc, P e := by
  intro l
  induction l with
  | nil => intro acc hacc e he; exact hacc e he
  | cons x xs ih =>
      intro acc hacc e he
      refine ih (step acc x) ?_ e he
      intro e' he'
      rcases hstep acc x e' he' with h | h
      · exact hacc e' h
      · exact h

/-- **C4.** Neither graph build ever produces a self-loop edge: every edge
added by `_build_from_database` or `_build_from_artifacts` has distinct
endpoints, for every input database and every artifact map. -/
theorem graph_no_self_loops :
    (∀ (rows imports : List (Nat × Str)) (e : Str × Str),
        e ∈ build_from_database_edges rows imports → e.1 ≠ e.2) ∧
    (∀ (artifacts : List (Str × List Str)) (e : Str × Str),
        e ∈ build_from_artifacts_edges artifacts → e.1 ≠ e.2) := by
  constructor
  · intro rows imports
    simp only [build_from_database_edges]
    refine foldl_preserve (fun (e : Str × Str) => e.1 ≠ e.2) _ ?_ imports [] (by simp)
    intro acc imp e he
    rcases hl : dictGetNat (rows.foldl (fun d r => dictSetNat d r.1 r.2) []) imp.1 with
      _ | importer
    · rw [hl] at he; exact Or.inl he
    · rw [hl] at he
      rcases hr : resolve_import (buildModuleMap (rows.map (·.2))) imp.2 with _ | target
      · rw [hr] at he; exact Or.inl he
      · rw [hr] at he
        dsimp only at he
        by_cases hne : target = importer
        · rw [if_neg (by simp [hne])] at he
          exact Or.inl he
        · rw [if_pos (by simp [hne])] at he
          rcases List.mem_append.mp he with h | h
          · exact Or.inl h
          · simp only [List.mem_singleton] at h
            subst h
            exact Or.inr (by simpa using Ne.symm hne)
  · intro artifacts
    simp only [build_from_artifacts_edges]
    refine foldl_preserve (fun (e : Str × Str) => e.1 ≠ e.2) _ ?_ artifacts [] (by simp)
    intro acc art e he
    by_cases hin : (artifacts.map (·.1)).contains art.1
    · rw [if_pos hin] at he
      refine foldl_preserve (fun (e : Str × Str) => e ∈ acc ∨ e.1 ≠ e.2) _ ?_ art.2 acc
        (fun x hx => Or.inl hx) e he
      intro acc2 imp x hx
      rcases hr : resolve_import (buildModuleMap (artifacts.map (·.1))) imp with _ | target
      · rw [hr] at hx; exact Or.inl hx
      · rw [hr] at hx
        dsimp only at hx
        by_cases hne : target = art.1
        · rw [if_neg (by simp [hne])] at hx
          exact Or.inl hx
        · rw [if_pos (by simp [hne])] at hx
          rcases List.mem_append.mp hx with h | h
          · exact Or.inl h
          · simp only [List.mem_singleton] at h
            subst h
            exact Or.inr (Or.inr (by simpa using Ne.symm hne))
    · rw [if_neg hin] at he
      exact Or.inl he

/-- Witness for C4: a two-file database with one resolving import produces a
non-loop edge, and the theorem applies to it. -/
theorem graph_no_self_loops_witness :
    (("a.py".toList, "b.py".toList) ∈
        build_from_database_edges [(1, "a.py".toList), (2, "b.py".toList)]
          [(1, "b".toList)] ∧
      "a.py".toList ≠ "b.py".toList) ∧
    (("a.py".toList, "b.py".toList) ∈
        build_from_artifacts_edges [("a.py".toList, ["b".toList]), ("b.py".toList, [])] ∧
      "a.py".toList ≠ "b.py".toList) :=
  ⟨⟨by decide,
      graph_no_self_loops.1 [(1, "a.py".toList), (2, "b.py".toList)] [(1, "b".toList)]
        ("a.py".toList, "b.py".toList) (by decide)⟩,
    ⟨by decide,
      graph_no_self_loops.2 [("a.py".toList, ["b".toList]), ("b.py".toList, [])]
        ("a.py".toList, "b.py".toList) (by decide)⟩⟩

-- ======================================================================
-- core/planner/utils.py : FileResolver
-- ======================================================================

/-- Exact nonnegative fraction.  Python's float scores are modelled by
exact rational arithmetic: every score the resolver computes is a ratio of
small naturals, and comparisons are cross-multiplication comparisons. -/
structure Frac where
  num : Nat
  den : Nat
deriving DecidableEq

def fracLt (a b : Frac) : Prop := a.num * b.den < b.num * a.den

def fracLe (a b : Frac) : Prop := a.num * b.den ≤ b.num * a.den

instance (a b : Frac) : Decidable (fracLt a b) := Nat.decLt _ _

instance (a b : Frac) : Decidable (fracLe a b) := Nat.decLe _ _

/-- Equality of fractions as rational numbers (ties of float scores). -/
def fracEq (a b : Frac) : Prop := a.num * b.den = b.num * a.den

instance (a b : Frac) : Decidable (fracEq a b) := Nat.decEq _ _

def fracMul (a b : Frac) : Frac := ⟨a.num * b.num, a.den * b.den⟩

/-- `FileMatch`: a successful file path resolution. -/
structure FileMatch where
  file_id : Nat
  path : Str
  score : Frac
  match_type : Str
deriving DecidableEq

def splitSlash (p : Str) : List Str :=
  pySplit p ['/']

/-- `len(set(l))`. -/
def setCard (l : List Str) : Nat :=
  l.dedup.length

/-- `len(set(l1) & set(l2))`. -/
def interCard (l1 l2 : List Str) : Nat :=
  (l1.dedup.filter (fun x => decide (x ∈ l2))).length

/-- `_path_similarity` (the `else 0.0` branch is dead: `split` never
returns an empty list). -/
def path_similarity (p1 p2 : Str) : Frac :=
  ⟨interCard (splitSlash p1) (splitSlash p2),
    max (splitSlash p1).length (splitSlash p2).length⟩

/-- Python `max(rows, key=f)`: the first element attaining the maximum
(later elements replace the current best only when strictly greater). -/
def pyMaxBy {α : Type} (f : α → Frac) : List α → Option α
  | [] => none
  | x :: xs => some (xs.foldl (fun b y => if fracLt (f b) (f y) then y else b) x)

/-- `_levenshtein_ratio` (source name; actually a containment check plus a
Jaccard-like character-set index, as the code's own docstring notes). -/
def levenshteinSim (s1 s2 : Str) : Frac :=
  if s1.isEmpty || s2.isEmpty then ⟨0, 1⟩
  else if containsSub s2 s1 || containsSub s1 s2 then
    ⟨max s1.length s2.length, max (max s1.length s2.length) 1⟩
  else
    ⟨(s1.dedup.filter (fun c => decide (c ∈ s2))).length,
      max s1.dedup.length s2.dedup.length⟩

/-- `_exact_match` over the files table (rows in database order). -/
def exact_match (db : List (Nat × Str)) (path : Str) : Option FileMatch :=
  (db.find? (fun r => decide (r.2 = path))).map
    (fun r => ⟨r.1, r.2, ⟨1, 1⟩, "exact".toList⟩)

/-- `_suffix_match`: `LIKE '%path'` on a wildcard-free fragment is a suffix
test. -/
def suffix_match (db : List (Nat × Str)) (path : Str) : Option FileMatch :=
  let rows := db.filter (fun r => endsWithS r.2 path)
  match pyMaxBy (fun r => path_similarity path r.2) rows with
  | none => none
  | some best =>
      some ⟨best.1, best.2, fracMul ⟨8, 10⟩ (path_similarity path best.2), "suffix".toList⟩

/-- `_filename_match`. -/
def filename_match (db : List (Nat × Str)) (path : Str) : Option FileMatch :=
  let filename := (splitSlash path).getLastD []
  let rows := db.filter (fun r => endsWithS r.2 filename)
  match pyMaxBy (fun r => ⟨interCard (splitSlash r.2) (splitSlash path), 1⟩) rows with
  | none => none
  | some best =>
      some ⟨best.1, best.2,
        fracMul ⟨4, 10⟩ ⟨interCard (splitSlash best.2) (splitSlash path),
          setCard (splitSlash path)⟩, "filename".toList⟩

/-- `_fuzzy_match`. -/
def fuzzy_match (db : List (Nat × Str)) (path : Str) : Option FileMatch :=
  match pyMaxBy (fun r => levenshteinSim path r.2) db with
  | none => none
  | some best =>
      if fracLe ⟨1, 2⟩ (levenshteinSim path best.2) then
        some ⟨best.1, best.2, fracMul ⟨6, 10⟩ (levenshteinSim path best.2), "fuzzy".toList⟩
      else none

/-- `path_fragment.replace("\\", "/").strip()`. -/
def normalizeFragment (frag : Str) : Str :=
  pyStrip (frag.map (fun c => if c = '\\' then '/' else c))

/-- One iteration of the strategy loop: update the best match and report
whether the `>= 0.95` early break fires (it fires only when the candidate
became the new best). -/
def stratStep (best cand : Option FileMatch) : Option FileMatch × Bool :=
  match cand with
  | none => (best, false)
  | some m =>
    match best with
    | none => (some m, fracLe ⟨95, 100⟩ m.score)
    | some b =>
        if fracLt b.score m.score then (some m, fracLe ⟨95, 100⟩ m.score)
        else (some b, false)

/-- The strategy loop of `FileResolver.resolve`. -/
def runStrategies (db : List (Nat × Str)) (normalized : Str) : Option FileMatch :=
  let s1 := stratStep none (exact_match db normalized)
  if s1.2 then s1.1
  else
    let s2 := stratStep s1.1 (suffix_match db normalized)
    if s2.2 then s2.1
    else
      let s3 := stratStep s2.1 (filename_match db normalized)
      if s3.2 then s3.1
      else (stratStep s3.1 (fuzzy_match db normalized)).1

/-- `FileResolver.resolve`: run the strategies, then refuse any best match
scoring below `0.3`. -/
def resolve (db : List (Nat × Str)) (frag : Str) : Option FileMatch :=
  match runStrategies db (normalizeFragment frag) with
  | none => none
  | some m => if fracLt m.score ⟨3, 10⟩ then none else some m

/-- **C7.** A candidate scoring below `0.3` is never returned: whenever the
resolver returns a match, its confidence score is at least `0.3` (when the
best candidate scores below `0.3` the resolver returns no match). -/
theorem resolve_score_floor (db : List (Nat × Str)) (frag : Str) (m : FileMatch)
    (h : resolve db frag = some m) : fracLe ⟨3, 10⟩ m.score := by
  simp only [resolve] at h
  cases hr : runStrategies db (normalizeFragment frag) with
  | none => rw [hr] at h; exact Option.noConfusion h
  | some b =>
      rw [hr] at h
      dsimp only at h
      by_cases hs : fracLt b.score ⟨3, 10⟩
      · rw [if_pos hs] at h
        exact Option.noConfusion h
      · rw [if_neg hs] at h
        injection h with h2
        subst h2
        simp only [fracLt, not_lt] at hs
        simp only [fracLe]
        omega

/-- Witness for C7: an exact match is returned and its score is ≥ 0.3. -/
theorem resolve_score_floor_witness :
    fracLe ⟨3, 10⟩ (FileMatch.mk 1 "a.py".toList ⟨1, 1⟩ "exact".toList).score :=
  resolve_score_floor [(1, "a.py".toList)] "a.py".toList
    ⟨1, "a.py".toList, ⟨1, 1⟩, "exact".toList⟩ (by decide)

theorem fracLt_den_pos {a b : Frac} (h : fracLt a b) : 0 < a.den := by
  simp only [fracLt] at h
  rcases Nat.eq_zero_or_pos a.den with h0 | h0
  · rw [h0, Nat.mul_zero] at h
    exact absurd h (Nat.not_lt_zero _)
  · exact h0

theorem fracLt_trans' {a b c : Frac} (h1 : fracLt a b) (h2 : fracLt b c) : fracLt a c := by
  have had : 0 < a.den := fracLt_den_pos h1
  have hbd : 0 < b.den := fracLt_den_pos h2
  simp only [fracLt] at h1 h2 ⊢
  rcases Nat.eq_zero_or_pos c.den with hc | hc
  · rw [hc, Nat.mul_zero] at h2 ⊢
    have hcn : 0 < c.num := by
      rcases Nat.eq_zero_or_pos c.num with h0 | h0
      · rw [h0, Nat.zero_mul] at h2; exact absurd h2 (Nat.not_lt_zero _)
      · exact h0
    exact Nat.mul_pos hcn had
  · have k1 : a.num * b.den * c.den < b.num * a.den * c.den :=
      Nat.mul_lt_mul_of_lt_of_le h1 (Nat.le_refl c.den) hc
    have k2 : b.num * c.den * a.den < c.num * b.den * a.den :=
      Nat.mul_lt_mul_of_lt_of_le h2 (Nat.le_refl a.den) had
    have k3 : a.num * c.den * b.den < c.num * a.den * b.den := by
      have e1 : b.num * a.den * c.den = b.num * c.den * a.den := by ring
      have e2 : a.num * b.den * c.den = a.num * c.den * b.den := by ring
      have e3 : c.num * b.den * a.den = c.num * a.den * b.den := by ring
      omega
    exact Nat.lt_of_mul_lt_mul_right k3

theorem fracLe_lt_trans' {a b c : Frac} (ha : 0 < a.den) (h1 : fracLe a b) (h2 : fracLt b c) :
    fracLt a c := by
  have hbd : 0 < b.den := fracLt_den_pos h2
  simp only [fracLe, fracLt] at h1 h2 ⊢
  rcases Nat.eq_zero_or_pos c.den with hc | hc
  · rw [hc, Nat.mul_zero] at h2 ⊢
    have hcn : 0 < c.num := by
      rcases Nat.eq_zero_or_pos c.num with h0 | h0
      · rw [h0, Nat.zero_mul] at h2; exact absurd h2 (Nat.not_lt_zero _)
      · exact h0
    exact Nat.mul_pos hcn ha
  · have k1 : a.num * b.den * c.den ≤ b.num * a.den * c.den :=
      Nat.mul_le_mul_right _ h1
    have k2 : b.num * c.den * a.den < c.num * b.den * a.den :=
      Nat.mul_lt_mul_of_lt_of_le h2 (Nat.le_refl a.den) ha
    have k3 : a.num * c.den * b.den < c.num * a.den * b.den := by
      have e1 : b.num * a.den * c.den = b.num * c.den * a.den := by ring
      have e2 : a.num * b.den * c.den = a.num * c.den * b.den := by ring
      have e3 : c.num * b.den * a.den = c.num * a.den * b.den := by ring
      omega
    exact Nat.lt_of_mul_lt_mul_right k3

theorem fracLe_of_not_lt {a b : Frac} (h : ¬ fracLt a b) : fracLe b a := by
  simp only [fracLt, Nat.not_lt] at h
  simpa only [fracLe] using h

theorem pyMaxBy_foldl_first {α : Type} (f : α → Frac) (hpos : ∀ x, 0 < (f x).den) :
    ∀ (xs : List α) (acc : α),
      ∃ l₁ l₂,
        acc :: xs = l₁ ++ (xs.foldl (fun b y => if fracLt (f b) (f y) then y else b) acc) :: l₂ ∧
        (∀ y ∈ l₁, fracLt (f y)
          (f (xs.foldl (fun b y => if fracLt (f b) (f y) then y else b) acc))) ∧
        (∀ y ∈ l₂, fracLe (f y)
          (f (xs.foldl (fun b y => if fracLt (f b) (f y) then y else b) acc))) := by
  intro xs
  induction xs with
  | nil =>
      intro acc
      exact ⟨[], [], rfl, by simp, by simp⟩
  | cons y ys ih =>
      intro acc
      simp only [List.foldl_cons]
      by_cases hy : fracLt (f acc) (f y)
      · rw [if_pos hy]
        obtain ⟨l₁, l₂, heq, hlt, hle⟩ := ih y
        refine ⟨acc :: l₁, l₂, ?_, ?_, hle⟩
        · rw [List.cons_append, ← heq]
        · intro z hz
          rcases List.mem_cons.mp hz with rfl | hz'
          · -- f acc < f m via the position of y in the split
            rcases l₁ with _ | ⟨a, l₁'⟩
            · have : y = ys.foldl (fun b y => if fracLt (f b) (f y) then y else b) y := by
                have := heq
                simp only [List.nil_append] at this
                exact (List.cons.injEq _ _ _ _).mp this |>.1
              rw [← this]
              exact hy
            · have hya : y = a := by
                have := heq
                simp only [List.cons_append] at this
                exact (List.cons.injEq _ _ _ _).mp this |>.1
              subst hya
              exact fracLt_trans' hy (hlt y (List.mem_cons_self y l₁'))
          · exact hlt z hz'
      · rw [if_neg hy]
        obtain ⟨l₁, l₂, heq, hlt, hle⟩ := ih acc
        have hyle : fracLe (f y) (f acc) := fracLe_of_not_lt hy
        rcases l₁ with _ | ⟨a, l₁'⟩
        · -- the fold result is acc itself
          have hacc : acc = ys.foldl (fun b y => if fracLt (f b) (f y) then y else b) acc := by
            have := heq
            simp only [List.nil_append] at this
            exact (List.cons.injEq _ _ _ _).mp this |>.1
          have hys : ys = l₂ := by
            have := heq
            simp only [List.nil_append] at this
            exact (List.cons.injEq _ _ _ _).mp this |>.2
          refine ⟨[], y :: l₂, ?_, by simp, ?_⟩
          · simp only [List.nil_append, ← hys]
            rw [← hacc]
          · intro z hz
            rcases List.mem_cons.mp hz with rfl | hz'
            · rw [← hacc]; exact hyle
            · exact hle z hz'
        · have haeq : acc = a := by
            have := heq
            simp only [List.cons_append] at this
            exact (List.cons.injEq _ _ _ _).mp this |>.1
          have hys : ys = l₁' ++ (ys.foldl (fun b y => if fracLt (f b) (f y) then y else b) acc) :: l₂ := by
            have := heq
            simp only [List.cons_append] at this
            exact (List.cons.injEq _ _ _ _).mp this |>.2
          subst haeq
          have haccm : fracLt (f acc)
              (f (ys.foldl (fun b y => if fracLt (f b) (f y) then y else b) acc)) :=
            hlt acc (List.mem_cons_self acc l₁')
          refine ⟨acc :: y :: l₁', l₂, ?_, ?_, hle⟩
          · simp only [List.cons_append, List.cons.injEq, true_and]
            exact hys
          · intro z hz
            rcases List.mem_cons.mp hz with rfl | hz'
            · exact haccm
            · rcases List.mem_cons.mp hz' with rfl | hz2
              · exact fracLe_lt_trans' (hpos z) hyle haccm
              · exact hlt z (List.mem_cons_of_mem _ hz2)

theorem pyMaxBy_first_max {α : Type} (f : α → Frac) (hpos : ∀ x, 0 < (f x).den)
    (l : List α) (m : α) (h : pyMaxBy f l = some m) :
    ∃ l₁ l₂, l = l₁ ++ m :: l₂ ∧ (∀ y ∈ l₁, fracLt (f y) (f m)) ∧
      (∀ y ∈ l₂, fracLe (f y) (f m)) := by
  cases l with
  | nil => exact Option.noConfusion h
  | cons x xs =>
      simp only [pyMaxBy, Option.some.injEq] at h
      subst h
      exact pyMaxBy_foldl_first f hpos xs x

/-- Counterexample to C8 as stated: against rows `dd/d/x.py` then
`c/d/x.py`, the fragment `d/x.py` scores both candidates equally under the
suffix-similarity key and under the fuzzy-similarity key, yet the resolver
returns the LONGER path `dd/d/x.py` (the earlier database row), not the
shorter `c/d/x.py`. -/
theorem resolver_tie_counterexample :
    fracEq (path_similarity "d/x.py".toList "dd/d/x.py".toList)
      (path_similarity "d/x.py".toList "c/d/x.py".toList) ∧
    fracEq (levenshteinSim "d/x.py".toList "dd/d/x.py".toList)
      (levenshteinSim "d/x.py".toList "c/d/x.py".toList) ∧
    "c/d/x.py".toList.length < "dd/d/x.py".toList.length ∧
    (resolve [(1, "dd/d/x.py".toList), (2, "c/d/x.py".toList)] "d/x.py".toList).map
      (fun m => m.path) = some "dd/d/x.py".toList := by
  refine ⟨by decide, by decide, by decide, by decide⟩

/-- **C8 (amended).** Ties among equal scores resolve deterministically to
the candidate in the earliest database row (Python `max` keeps the first
maximum: the chosen element strictly beats every earlier candidate and
weakly beats every later one), not to the shorter path; resolving
`"scanner.py"` against an index containing `core/scanner.py` and
`core/scanner_old.py` still returns `core/scanner.py`. -/
theorem resolver_tie_first_row :
    (∀ {α : Type} (f : α → Frac), (∀ x, 0 < (f x).den) → ∀ (l : List α) (m : α),
        pyMaxBy f l = some m →
        ∃ l₁ l₂, l = l₁ ++ m :: l₂ ∧ (∀ y ∈ l₁, fracLt (f y) (f m)) ∧
          (∀ y ∈ l₂, fracLe (f y) (f m))) ∧
    (resolve [(1, "core/scanner.py".toList), (2, "core/scanner_old.py".toList)]
        "scanner.py".toList).map (fun m => m.path) = some "core/scanner.py".toList :=
  ⟨fun f hpos l m h => pyMaxBy_first_max f hpos l m h, by decide⟩

-- ======================================================================
-- core/worker : dispatcher routing, extract-and-modify parsing, safety
-- ======================================================================

/-- Python `s.lower()` (ASCII; the descriptions involved are ASCII). -/
def pyLower (s : Str) : Str := s.map Char.toLower

/-- Python `s.upper()` (ASCII). -/
def pyUpper (s : Str) : Str := s.map Char.toUpper

/-- A ChangeStep as consumed by `_process_change` / `_looks_like_delete`. -/
structure ChangeStep where
  action : Str
  target_file : Str
  description : Str
  detected_entities : List Str
  source_file : Option Str
deriving DecidableEq

/-- One Extraction Map entry. -/
structure ExtractionEntry where
  moved_to : List Str
  symbols : List Str
deriving DecidableEq

/-- Routing outcomes of `_process_change` (which engine handles the step). -/
inductive Route where
  | surgicalCreate
  | cstDelete (names : List Str)
  | extractAndModify
  | createFallback
  | semanticDelete
  | patchLarge
  | fullRewrite
deriving DecidableEq

/-- Python truthiness of `instruction.get("source_file")`. -/
def sourceTruthy (ins : ChangeStep) : Bool :=
  match ins.source_file with
  | some s => !s.isEmpty
  | none => false

/-- `is_delete` of `_process_change` CASE 2: a removal keyword in the
lower-cased description, with no entity-word requirement. -/
def isDeleteDesc (desc : Str) : Bool :=
  containsSub (pyLower desc) "remove".toList ||
    containsSub (pyLower desc) "delete".toList ||
    containsSub (pyLower desc) "cleanup".toList

/-- Symbols recorded in the Extraction Map for a target file. -/
def mappedSymbols (em : List (Str × ExtractionEntry)) (target : Str) : List Str :=
  match em.find? (fun p => decide (p.1 = target)) with
  | some p => p.2.symbols
  | none => []

/-- The deletion candidates of CASE 2: the step's declared entities, or the
Extraction Map symbols for the target when the declared list is empty. -/
def effectiveEntities (ins : ChangeStep) (em : List (Str × ExtractionEntry)) : List Str :=
  if ins.detected_entities = [] ∧ mappedSymbols em ins.target_file ≠ [] then
    mappedSymbols em ins.target_file
  else ins.detected_entities

/-- `_looks_like_delete`. -/
def looks_like_delete (ins : ChangeStep) : Bool :=
  let desc := pyLower ins.description
  let action := pyUpper ins.action
  if action = "DELETE".toList then true
  else if action = "CREATE".toList then false
  else if containsSub desc "delete file".toList || containsSub desc "remove file".toList ||
      containsSub desc "drop file".toList then true
  else
    (containsSub desc "delete".toList || containsSub desc "drop".toList ||
      containsSub desc "eliminate".toList) ||
    (containsSub desc "remove".toList &&
      (containsSub desc "function".toList || containsSub desc "class".toList ||
        containsSub desc "method".toList))

/-- The dispatch order of `_process_change`: surgical create, CST deletion,
extract-and-modify, the CREATE fallback, semantic delete, the 600-line
patch threshold, full rewrite. -/
def process_change_route (original : Str) (ins : ChangeStep)
    (em : List (Str × ExtractionEntry)) : Route :=
  if pyUpper ins.action = "CREATE".toList ∧ sourceTruthy ins = true then
    Route.surgicalCreate
  else if pyUpper ins.action = "MODIFY".toList ∧ isDeleteDesc ins.description = true ∧
      effectiveEntities ins em ≠ [] then
    Route.cstDelete (effectiveEntities ins em)
  else if pyUpper ins.action = "EXTRACT_AND_MODIFY".toList then Route.extractAndModify
  else if pyUpper ins.action = "CREATE".toList then Route.createFallback
  else if looks_like_delete ins = true then Route.semanticDelete
  else if 600 < (pySplitLines original).length then Route.patchLarge
  else Route.fullRewrite

def c6step : ChangeStep :=
  ⟨"MODIFY".toList, "a.py".toList, "delete obsolete helpers".toList,
    ["helper".toList], none⟩

/-- Counterexample to C6 as stated: a MODIFY step whose description
contains the removal keyword "delete" but none of "function", "class" or
"method" is still routed to the format-preserving (CST) deletion. -/
theorem dispatcher_delete_routing_counterexample :
    process_change_route [] c6step [] = Route.cstDelete ["helper".toList] ∧
    containsSub (pyLower c6step.description) "function".toList = false ∧
    containsSub (pyLower c6step.description) "class".toList = false ∧
    containsSub (pyLower c6step.description) "method".toList = false := by
  refine ⟨by decide, by decide, by decide, by decide⟩

/-- **C6 (amended).** A MODIFY step is routed to format-preserving (CST)
definition deletion exactly when its lower-cased description contains
"remove", "delete" or "cleanup" (no co-occurrence with an entity word is
required; that refinement exists only for the "remove" keyword of the
separate `_looks_like_delete` heuristic) and the effective deletion set is
non-empty; when the step's declared entities are empty, the names recorded
in the Extraction Map for the target file are used as the deletion set. -/
theorem dispatcher_delete_routing :
    (∀ (original : Str) (ins : ChangeStep) (em : List (Str × ExtractionEntry))
        (ns : List Str),
        process_change_route original ins em = Route.cstDelete ns ↔
          (pyUpper ins.action = "MODIFY".toList ∧ isDeleteDesc ins.description = true ∧
            ns = effectiveEntities ins em ∧ ns ≠ [])) ∧
    (∀ (ins : ChangeStep) (em : List (Str × ExtractionEntry)),
        ins.detected_entities = [] →
          effectiveEntities ins em = mappedSymbols em ins.target_file) := by
  constructor
  · intro original ins em ns
    constructor
    · intro h
      unfold process_change_route at h
      split_ifs at h with h1 h2 h3 h4 h5 h6
      all_goals simp only [Route.cstDelete.injEq, reduceCtorEq] at h
      exact ⟨h2.1, h2.2.1, h.symm, fun hc => h2.2.2 (h.trans hc)⟩
    · rintro ⟨ha, hd, rfl, hne⟩
      have hnc : ¬ (pyUpper ins.action = "CREATE".toList ∧ sourceTruthy ins = true) := by
        rintro ⟨hc, -⟩
        rw [ha] at hc
        exact absurd hc (by decide)
      unfold process_change_route
      rw [if_neg hnc, if_pos ⟨ha, hd, hne⟩]
  · intro ins em hde
    unfold effectiveEntities
    rw [hde]
    by_cases hm : mappedSymbols em ins.target_file = []
    · rw [if_neg (by simp [hm]), hm]
    · rw [if_pos ⟨rfl, hm⟩]

def targetMarkerEAM : Str := "<<<<<<< TARGET_CONTENT".toList

def sourceMarkerEAM : Str := "<<<<<<< SOURCE_CONTENT".toList

def midMarkerEAM : Str := "=======".toList

instance {e a : Type} [DecidableEq e] [DecidableEq a] : DecidableEq (Except e a) :=
  fun x y =>
    match x, y with
    | .ok v, .ok w => if h : v = w then isTrue (by rw [h]) else isFalse (by simp [h])
    | .ok _, .error _ => isFalse (by simp)
    | .error _, .ok _ => isFalse (by simp)
    | .error v, .error w => if h : v = w then isTrue (by rw [h]) else isFalse (by simp [h])

/-- `_clean_llm_code`, including its slip: when the stripped code starts
with a markdown fence, the code calls `lines.startswith` on a *list* of
lines, which raises `AttributeError` unconditionally (the comment says it
means to test the first line). -/
def clean_llm_code (raw : Str) : Except String Str :=
  let r := pyStrip raw
  if fenceTok.isPrefixOf r then
    .error "AttributeError: list object has no attribute startswith"
  else .ok r

/-- The parsing stage of `_extract_and_modify` applied to the generator's
raw response: returns the target content, the source content and the
truncation flag, or the raised exception. -/
def parse_extract_and_modify (raw : Str) :
    Except String (Str × Str × Bool) :=
  match findSub raw targetMarkerEAM, findSub raw midMarkerEAM with
  | none, _ => .error "ValueError: Could not find TARGET_CONTENT block delimiters"
  | _, none => .error "ValueError: Could not find TARGET_CONTENT block delimiters"
  | some tStart, some tEnd =>
    let targetRaw := pyStrip (sliceStr raw (tStart + targetMarkerEAM.length) tEnd)
    match findSubFrom raw sourceMarkerEAM tEnd with
    | none => .error "ValueError: Could not find SOURCE_CONTENT block start"
    | some sStart =>
      let res :=
        match findSubFrom raw endMarker7 sStart with
        | none => (pyStrip (raw.drop (sStart + sourceMarkerEAM.length)), true)
        | some sEnd => (pyStrip (sliceStr raw (sStart + sourceMarkerEAM.length) sEnd), false)
      match clean_llm_code targetRaw, clean_llm_code res.1 with
      | .error e, _ => .error e
      | _, .error e => .error e
      | .ok t, .ok s => .ok (t, s, res.2)

/-- **C9.** For responses carrying the TARGET marker, the separator, and
the SOURCE marker after it but no trailing END marker, the parser returns
both sections — the source section being everything from after the SOURCE
marker to the end of the text (stripped and fence-cleaned) — with the
truncation flag set instead of an error. -/
theorem extract_and_modify_truncation (raw : Str) (tStart tEnd sStart : Nat)
    (h1 : findSub raw targetMarkerEAM = some tStart)
    (h2 : findSub raw midMarkerEAM = some tEnd)
    (h3 : findSubFrom raw sourceMarkerEAM tEnd = some sStart)
    (h4 : findSubFrom raw endMarker7 sStart = none)
    (h5 : clean_llm_code (pyStrip (sliceStr raw (tStart + targetMarkerEAM.length) tEnd)) =
      .ok tgt)
    (h6 : clean_llm_code (pyStrip (raw.drop (sStart + sourceMarkerEAM.length))) = .ok src) :
    parse_extract_and_modify raw = .ok (tgt, src, true) := by
  simp only [parse_extract_and_modify, h1, h2, h3, h4, h5, h6]

def c9good : Str :=
  "<<<<<<< TARGET_CONTENT\nx = 1\n=======\n<<<<<<< SOURCE_CONTENT\ny = 2\n".toList

/-- Witness for C9: a truncated response (no trailing `>>>>>>>`) still
parses into both sections with the truncation flag set. -/
theorem extract_and_modify_truncation_witness :
    parse_extract_and_modify c9good = .ok ("x = 1".toList, "y = 2".toList, true) :=
  extract_and_modify_truncation c9good 0 29 37 (by decide) (by decide) (by decide)
    (by decide) (by decide) (by decide)

def c9failing : Str :=
  "<<<<<<< TARGET_CONTENT\nx = 1\n=======\n<<<<<<< SOURCE_CONTENT\n```python\ny = 2\n".toList

/-- **C9 (code bug).** A truncated response whose source section begins
with a markdown fence satisfies every hypothesis of the claim (all three
markers present, no trailing END marker) yet the call raises: the
fence-removal path of `_clean_llm_code` calls `startswith` on the list of
lines and so raises `AttributeError` instead of returning the sections with
a truncation warning. -/
theorem extract_and_modify_truncation_fence_bug :
    containsSub c9failing targetMarkerEAM = true ∧
    containsSub c9failing midMarkerEAM = true ∧
    containsSub c9failing sourceMarkerEAM = true ∧
    containsSub c9failing endMarker7 = false ∧
    parse_extract_and_modify c9failing =
      .error "AttributeError: list object has no attribute startswith" := by
  refine ⟨by decide, by decide, by decide, by decide, by decide⟩

/-- `_is_suspicious`: the truncation/refusal heuristic.  The float
comparison `len(proposed) < len(original) * 0.3` is modelled exactly. -/
def is_suspicious (original proposed : Str) : Bool :=
  if original.isEmpty then false
  else if 10 * proposed.length < 3 * original.length ∧ 500 < original.length then true
  else if containsSub proposed "As an AI".toList || containsSub proposed "I cannot".toList then
    true
  else false

/-- The per-file safety check of `Worker.create_diff_draft` step 4: every
staged file is checked with an empty original (`self._is_suspicious("",
content)`). -/
def create_diff_draft_flags (files : List (Str × Str)) : List (Str × Bool) :=
  files.map (fun pc => (pc.1, is_suspicious [] pc.2))

/-- **C10.** With an empty original the suspicious-output predicate is
always false — even on refusal phrasing — and since the drafting loop
passes an empty original for every staged file, no staged content is ever
flagged. -/
theorem is_suspicious_empty_original :
    (∀ proposed : Str, is_suspicious [] proposed = false) ∧
    is_suspicious [] "I cannot help with that. As an AI".toList = false ∧
    (∀ files : List (Str × Str),
      ((create_diff_draft_flags files).all (fun pc => !pc.2)) = true) := by
  refine ⟨?_, by decide, ?_⟩
  · intro proposed
    simp [is_suspicious]
  · intro files
    simp [create_diff_draft_flags, List.all_eq_true, is_suspicious]

-- ======================================================================
-- core/ast_patcher.py & core/cst_patcher.py : definition deletion.
-- The two tree libraries (Python ast / libcst) are external to the
-- repository; they are modelled on a line-structured fragment of Python:
-- top-level `def NAME(...):` / `class NAME...:` headers with indented,
-- non-blank body lines, plain top-level statement lines, and blank or
-- whole-line comment lines (attached, as in libcst, to the following
-- statement, or to the module footer at the end); no string literal
-- contains `#` or a newline, and statements are written in the canonical
-- spacing the unparser produces.
-- ======================================================================

/-- One top-level item of the concrete (lossless) tree. -/
inductive TopItem where
  | defn (name : Str) (leading : List Str) (header : Str) (body : List Str)
  | stmt (leading : List Str) (line : Str)
  | footer (lines : List Str)
deriving DecidableEq

/-- The raw source lines of an item, in order. -/
def itemLines : TopItem → List Str
  | .defn _ leading header body => leading ++ header :: body
  | .stmt leading line => leading ++ [line]
  | .footer ls => ls

/-- Render a parsed module back to text (lossless). -/
def renderItems (items : List TopItem) : Str :=
  List.intercalate ['\n'] ((items.map itemLines).flatten)

/-- A line that is blank or a whole-line comment. -/
def isBlankOrComment (l : Str) : Bool :=
  match pyStrip l with
  | [] => true
  | c :: _ => c = '#'

/-- A line starting with indentation. -/
def isIndented (l : Str) : Bool :=
  match l with
  | [] => false
  | c :: _ => c = ' ' || c = '\t'

/-- Recognize a top-level definition header and extract its name. -/
def parseDefName (l : Str) : Option Str :=
  if "def ".toList.isPrefixOf l then
    some ((l.drop 4).takeWhile (fun c => c ≠ '('))
  else if "class ".toList.isPrefixOf l then
    some ((l.drop 6).takeWhile (fun c => c ≠ '(' ∧ c ≠ ':'))
  else none

/-- Fuel-driven parser from source lines to top-level items. -/
def parseItemsF : Nat → List Str → List Str → List TopItem
  | 0, pending, _ => if pending = [] then [] else [.footer pending]
  | _ + 1, pending, [] => if pending = [] then [] else [.footer pending]
  | fuel + 1, pending, l :: rest =>
      if isBlankOrComment l then parseItemsF fuel (pending ++ [l]) rest
      else
        match parseDefName l with
        | some nm =>
            let body := rest.takeWhile isIndented
            .defn nm pending l body :: parseItemsF fuel [] (rest.drop body.length)
        | none => .stmt pending l :: parseItemsF fuel [] rest

/-- Parser entry point (the fuel is always sufficient). -/
def parseItems (segs : List Str) : List TopItem :=
  parseItemsF (segs.length + 1) [] segs

/-- `RemovalTransformer`: drop the definitions whose name is listed (their
attached leading lines go with them, as `RemoveFromParent` removes the
whole statement including its `leading_lines`). -/
def filterItems (names : List Str) (items : List TopItem) : List TopItem :=
  items.filter
    (fun i =>
      match i with
      | .defn nm _ _ _ => decide (nm ∉ names)
      | _ => true)

/-- `remove_definitions_cst`: parse losslessly, remove, re-render. -/
def remove_definitions_cst (source : Str) (names : List Str) : Str :=
  renderItems (filterItems names (parseItems (pySplit source ['\n'])))

/-- Python `s.rstrip()`. -/
def pyRStrip (s : Str) : Str :=
  (s.reverse.dropWhile isPyWs).reverse

/-- What survives of one line in the abstract tree: the code before the
first `#`, right-stripped (comments never reach the AST). -/
def stripInlineComment (l : Str) : Str :=
  pyRStrip (l.takeWhile (fun c => c ≠ '#'))

/-- The unparsed lines of one item (`ast.unparse` conventions: leading
comments and blank lines vanish, inline comments vanish). -/
def astRenderItem : TopItem → List Str
  | .defn _ _ header body =>
      stripInlineComment header ::
        body.filterMap
          (fun l =>
            let c := stripInlineComment l
            if (pyStrip c).isEmpty then none else some c)
  | .stmt _ line =>
      let c := stripInlineComment line
      if (pyStrip c).isEmpty then [] else [c]
  | .footer _ => []

/-- `ast.unparse` of a module: items in order, one blank line before every
definition that is not the first rendered statement, no trailing newline
(conventions checked against CPython). -/
def astUnparse (items : List TopItem) : Str :=
  let step := fun (acc : List Str × Bool) (i : TopItem) =>
    let ls := astRenderItem i
    if ls.isEmpty then acc
    else
      match i with
      | .defn _ _ _ _ => (acc.1 ++ (if acc.2 then [] :: ls else ls), true)
      | _ => (acc.1 ++ ls, true)
  List.intercalate ['\n'] (items.foldl step ([], false)).1

/-- `delete_definitions`: empty name set returns the source unchanged;
otherwise parse, drop the named definitions, and re-render through the
canonical unparser. -/
def delete_definitions (source : Str) (names : List Str) : Str :=
  if names = [] then source
  else astUnparse (filterItems names (parseItems (pySplit source ['\n'])))

/-- `parseItemsF` with the canonical fuel. -/
def parseItemsP (pending segs : List Str) : List TopItem :=
  parseItemsF (segs.length + 1) pending segs

theorem parseItemsF_fuel :
    ∀ (fuel fuel' : Nat) (pending segs : List Str), segs.length < fuel →
      segs.length < fuel' → parseItemsF fuel pending segs = parseItemsF fuel' pending segs := by
  intro fuel
  induction fuel with
  | zero => intro fuel' pending segs h1; omega
  | succ f ih =>
      intro fuel' pending segs h1 h2
      cases fuel' with
      | zero => omega
      | succ f' =>
          cases segs with
          | nil => rfl
          | cons l rest =>
              simp only [parseItemsF]
              simp only [List.length_cons] at h1 h2
              by_cases hb : isBlankOrComment l = true
              · rw [if_pos hb, if_pos hb]
                exact ih f' (pending ++ [l]) rest (by omega) (by omega)
              · rw [if_neg hb, if_neg hb]
                cases hd : parseDefName l with
                | some nm =>
                    dsimp only
                    have hdl : (rest.drop (rest.takeWhile isIndented).length).length ≤
                        rest.length := by
                      simp only [List.length_drop]; omega
                    rw [ih f' [] (rest.drop (rest.takeWhile isIndented).length)
                      (by omega) (by omega)]
                | none =>
                    dsimp only
                    rw [ih f' [] rest (by omega) (by omega)]

theorem parseItemsP_nil (pending : List Str) :
    parseItemsP pending [] = if pending = [] then [] else [.footer pending] := rfl

theorem parseItemsP_cons (pending : List Str) (l : Str) (rest : List Str) :
    parseItemsP pending (l :: rest) =
      if isBlankOrComment l then parseItemsP (pending ++ [l]) rest
      else
        match parseDefName l with
        | some nm =>
            .defn nm pending l (rest.takeWhile isIndented) ::
              parseItemsP [] (rest.drop (rest.takeWhile isIndented).length)
        | none => .stmt pending l :: parseItemsP [] rest := by
  simp only [parseItemsP, List.length_cons, parseItemsF]
  by_cases hb : isBlankOrComment l = true
  · rw [if_pos hb, if_pos hb]
  · rw [if_neg hb, if_neg hb]
    cases hd : parseDefName l with
    | some nm =>
        dsimp only
        have hdl : (rest.drop (rest.takeWhile isIndented).length).length ≤ rest.length := by
          simp only [List.length_drop]; omega
        rw [parseItemsF_fuel (rest.length + 1) ((rest.drop
          (rest.takeWhile isIndented).length).length + 1) []
          (rest.drop (rest.takeWhile isIndented).length) (by omega) (by omega)]
    | none => rfl

/-- A well-formed leading line: a newline-free, non-indented blank or
comment line. -/
def goodLeadLine (l : Str) : Bool :=
  !l.contains '\n' && isBlankOrComment l && !isIndented l

/-- A well-formed body line: newline-free and indented. -/
def goodBodyLine (l : Str) : Bool :=
  !l.contains '\n' && isIndented l

/-- Well-formedness of one item in the modelled fragment. -/
def itemOk : TopItem → Bool
  | .defn nm leading header body =>
      leading.all goodLeadLine && !header.contains '\n' &&
        decide (parseDefName header = some nm) && !isBlankOrComment header &&
        !isIndented header && body.all goodBodyLine
  | .stmt leading line =>
      leading.all goodLeadLine && !line.contains '\n' &&
        decide (parseDefName line = none) && !isBlankOrComment line && !isIndented line
  | .footer ls => !ls.isEmpty && ls.all goodLeadLine

/-- Well-formedness of a parsed module: every item well formed, the footer
only in final position. -/
def goodItems : List TopItem → Bool
  | [] => true
  | TopItem.footer ls :: rest =>
      match rest with
      | [] => itemOk (.footer ls)
      | _ :: _ => false
  | i :: rest => itemOk i && goodItems rest

theorem goodItems_cons (i : TopItem) (rest : List TopItem)
    (h : goodItems (i :: rest) = true) : itemOk i = true ∧ goodItems rest = true := by
  cases i with
  | defn nm leading header body =>
      simp only [goodItems, Bool.and_eq_true] at h
      exact h
  | stmt leading line =>
      simp only [goodItems, Bool.and_eq_true] at h
      exact h
  | footer ls =>
      cases rest with
      | nil => exact ⟨h, rfl⟩
      | cons j t => exact Bool.noConfusion h

theorem parseItemsP_leading (leading : List Str) :
    ∀ (pending segs : List Str), leading.all isBlankOrComment = true →
      parseItemsP pending (leading ++ segs) = parseItemsP (pending ++ leading) segs := by
  induction leading with
  | nil => intro pending segs h; simp
  | cons l ls ih =>
      intro pending segs h
      simp only [List.all_cons, Bool.and_eq_true] at h
      rw [List.cons_append, parseItemsP_cons, if_pos h.1, ih (pending ++ [l]) segs h.2]
      simp

theorem takeWhile_append_of_all (p : Str → Bool) :
    ∀ (body rest : List Str), (∀ l ∈ body, p l = true) →
      (rest = [] ∨ ∃ h t, rest = h :: t ∧ p h = false) →
      (body ++ rest).takeWhile p = body := by
  intro body
  induction body with
  | nil =>
      intro rest hb hr
      rcases hr with rfl | ⟨h, t, rfl, hh⟩
      · rfl
      · simp [List.takeWhile_cons, hh]
  | cons b bs ih =>
      intro rest hb hr
      have hbb : p b = true := hb b (List.mem_cons_self b bs)
      simp only [List.cons_append, List.takeWhile_cons, hbb]
      rw [ih rest (fun l hl => hb l (List.mem_cons_of_mem _ hl)) hr]
      simp

theorem goodItems_head_not_indented (items : List TopItem) (hg : goodItems items = true) :
    (items.map itemLines).flatten = [] ∨
      ∃ h t, (items.map itemLines).flatten = h :: t ∧ isIndented h = false := by
  cases items with
  | nil => exact Or.inl rfl
  | cons i rest =>
      obtain ⟨hok, -⟩ := goodItems_cons i rest hg
      right
      cases i with
      | defn nm leading header body =>
          simp only [itemOk, Bool.and_eq_true, Bool.not_eq_true'] at hok
          cases leading with
          | nil =>
              refine ⟨header, body ++ ((rest.map itemLines).flatten), ?_, ?_⟩
              · simp [itemLines]
              · exact hok.1.2
          | cons l ls =>
              have hl : goodLeadLine l = true := by
                have := hok.1.1.1.1.1
                simp only [List.all_cons, Bool.and_eq_true] at this
                exact this.1
              simp only [goodLeadLine, Bool.and_eq_true, Bool.not_eq_true'] at hl
              exact ⟨l, ls ++ header :: body ++ ((rest.map itemLines).flatten), by
                simp [itemLines], hl.2⟩
      | stmt leading line =>
          simp only [itemOk, Bool.and_eq_true, Bool.not_eq_true'] at hok
          cases leading with
          | nil =>
              exact ⟨line, (rest.map itemLines).flatten, by simp [itemLines], hok.2⟩
          | cons l ls =>
              have hl : goodLeadLine l = true := by
                have := hok.1.1.1.1
                simp only [List.all_cons, Bool.and_eq_true] at this
                exact this.1
              simp only [goodLeadLine, Bool.and_eq_true, Bool.not_eq_true'] at hl
              exact ⟨l, ls ++ [line] ++ ((rest.map itemLines).flatten), by
                simp [itemLines], hl.2⟩
      | footer ls =>
          simp only [itemOk, Bool.and_eq_true, Bool.not_eq_true'] at hok
          cases ls with
          | nil => simp [List.isEmpty_nil] at hok
          | cons l ls2 =>
              have hl : goodLeadLine l = true := by
                have := hok.2
                simp only [List.all_cons, Bool.and_eq_true] at this
                exact this.1
              simp only [goodLeadLine, Bool.and_eq_true, Bool.not_eq_true'] at hl
              exact ⟨l, ls2 ++ ((rest.map itemLines).flatten), by simp [itemLines], hl.2⟩

theorem all_goodLead_blankComment (leading : List Str)
    (h : leading.all goodLeadLine = true) : leading.all isBlankOrComment = true := by
  rw [List.all_eq_true] at h ⊢
  intro l hl
  have := h l hl
  simp only [goodLeadLine, Bool.and_eq_true] at this
  exact this.1.2

/-- Parsing inverts rendering on well-formed modules. -/
theorem parse_render_round :
    ∀ (items : List TopItem), goodItems items = true →
      parseItemsP [] ((items.map itemLines).flatten) = items := by
  intro items
  induction items with
  | nil => intro hg; rfl
  | cons i rest ih =>
      intro hg
      obtain ⟨hok, hgr⟩ := goodItems_cons i rest hg
      cases i with
      | defn nm leading header body =>
          simp only [itemOk, Bool.and_eq_true, Bool.not_eq_true', decide_eq_true_eq] at hok
          simp only [List.map_cons, List.flatten_cons, itemLines]
          rw [List.append_assoc]
          have hassoc : (header :: body) ++ (rest.map itemLines).flatten =
              header :: (body ++ (rest.map itemLines).flatten) := rfl
          rw [hassoc,
            parseItemsP_leading leading [] _ (all_goodLead_blankComment leading hok.1.1.1.1.1),
            List.nil_append, parseItemsP_cons, if_neg (by simp [hok.1.1.2]), hok.1.1.1.2]
          dsimp only
          have htw : (body ++ (rest.map itemLines).flatten).takeWhile isIndented = body := by
            refine takeWhile_append_of_all isIndented body _ ?_ ?_
            · intro l hl
              have := List.all_eq_true.mp hok.2 l hl
              simp only [goodBodyLine, Bool.and_eq_true] at this
              exact this.2
            · rcases goodItems_head_not_indented rest hgr with h0 | ⟨h, t, heq, hni⟩
              · exact Or.inl h0
              · exact Or.inr ⟨h, t, heq, hni⟩
          rw [htw, List.drop_left, ih hgr]
      | stmt leading line =>
          simp only [itemOk, Bool.and_eq_true, Bool.not_eq_true', decide_eq_true_eq] at hok
          simp only [List.map_cons, List.flatten_cons, itemLines]
          rw [List.append_assoc]
          have hassoc : [line] ++ (rest.map itemLines).flatten =
              line :: (rest.map itemLines).flatten := rfl
          rw [hassoc,
            parseItemsP_leading leading [] _ (all_goodLead_blankComment leading hok.1.1.1.1),
            List.nil_append, parseItemsP_cons, if_neg (by simp [hok.1.2]), hok.1.1.2]
          dsimp only
          rw [ih hgr]
      | footer ls =>
          cases rest with
          | cons j t => exact absurd hg (by simp [goodItems])
          | nil =>
              have hok2 : itemOk (TopItem.footer ls) = true := hok
              simp only [itemOk, Bool.and_eq_true, Bool.not_eq_true'] at hok2
              simp only [List.map_cons, List.flatten_cons, itemLines, List.map_nil,
                List.flatten_nil, List.append_nil]
              have hls : parseItemsP [] (ls ++ []) = parseItemsP ([] ++ ls) [] :=
                parseItemsP_leading ls [] [] (all_goodLead_blankComment ls hok2.2)
              simp only [List.append_nil, List.nil_append] at hls
              rw [hls, parseItemsP_nil, if_neg (by
                intro hc
                rw [hc] at hok2
                simp at hok2)]

theorem intercalate_cons_cons (a b : Str) (t : List Str) :
    List.intercalate ['\n'] (a :: b :: t) =
      a ++ '\n' :: List.intercalate ['\n'] (b :: t) := by
  simp [List.intercalate, List.intersperse]

theorem pySplit_intercalate :
    ∀ (lines : List Str), lines ≠ [] → (∀ l ∈ lines, '\n' ∉ l) →
      pySplit (List.intercalate ['\n'] lines) ['\n'] = lines := by
  intro lines
  induction lines with
  | nil => intro h; exact absurd rfl h
  | cons l rest ih =>
      intro hne hmem
      have hl : '\n' ∉ l := hmem l (List.mem_cons_self l rest)
      cases rest with
      | nil =>
          have h1 : List.intercalate ['\n'] [l] = l := by
            simp [List.intercalate, List.intersperse]
          rw [h1, pySplit_eq _ _ (by decide),
            show findSub l ['\n'] = none from findSubAux_singleton_none '\n' l 0 hl]
      | cons l2 t =>
          rw [intercalate_cons_cons, pySplit_eq _ _ (by decide)]
          rw [show l ++ '\n' :: List.intercalate ['\n'] (l2 :: t) =
            l ++ '\n' :: List.intercalate ['\n'] (l2 :: t) from rfl]
          have hf : findSub (l ++ '\n' :: List.intercalate ['\n'] (l2 :: t)) ['\n'] =
              some l.length := by
            have := findSubAux_singleton_eq '\n' l (List.intercalate ['\n'] (l2 :: t)) 0 hl
            simpa [findSub] using this
          rw [hf]
          dsimp only
          have ht : (l ++ '\n' :: List.intercalate ['\n'] (l2 :: t)).take l.length = l := by
            exact List.take_left l _
          have hd : (l ++ '\n' :: List.intercalate ['\n'] (l2 :: t)).drop (l.length + 1) =
              List.intercalate ['\n'] (l2 :: t) := by
            have h3 : l ++ '\n' :: List.intercalate ['\n'] (l2 :: t) =
                (l ++ ['\n']) ++ List.intercalate ['\n'] (l2 :: t) := by simp
            rw [h3]
            have h4 : l.length + 1 = (l ++ ['\n']).length := by simp
            rw [h4, List.drop_left]
          simp only [List.length_singleton] at *
          rw [ht, hd, ih (by simp) (fun x hx => hmem x (List.mem_cons_of_mem _ hx))]

theorem findSubAux_isSome_of_prefix (needle s : Str) (i : Nat)
    (h : List.isPrefixOf needle s = true) : (findSubAux needle s i).isSome = true := by
  cases s with
  | nil =>
      have hn : needle = [] := by
        cases needle with
        | nil => rfl
        | cons a b => simp [List.isPrefixOf] at h
      simp [findSubAux, hn]
  | cons c rest => simp [findSubAux, h]

theorem findSubAux_isSome_cons (needle : Str) (c : Char) (rest : Str) (i : Nat)
    (h : (findSubAux needle rest (i + 1)).isSome = true) :
    (findSubAux needle (c :: rest) i).isSome = true := by
  simp only [findSubAux]
  by_cases hp : List.isPrefixOf needle (c :: rest) = true
  · simp [hp]
  · simp [hp, h]

theorem containsSub_of_infix (hay needle : Str) (h : needle <:+: hay) :
    containsSub hay needle = true := by
  obtain ⟨s, t, rfl⟩ := h
  rw [containsSub, findSub]
  suffices hs : ∀ (s2 : Str) (i : Nat),
      (findSubAux needle (s2 ++ (needle ++ t)) i).isSome = true by
    have := hs s 0
    simpa [List.append_assoc] using this
  intro s2
  induction s2 with
  | nil =>
      intro i
      refine findSubAux_isSome_of_prefix needle ([] ++ (needle ++ t)) i ?_
      rw [List.isPrefixOf_iff_prefix, List.nil_append]
      exact ⟨t, rfl⟩
  | cons a s2h ih =>
      intro i
      exact findSubAux_isSome_cons needle a (s2h ++ (needle ++ t)) i (ih (i + 1))

theorem infix_of_containsSub (hay needle : Str) (h : containsSub hay needle = true) :
    needle <:+: hay := by
  rw [containsSub, findSub] at h
  suffices hs : ∀ (s2 : Str) (i : Nat), (findSubAux needle s2 i).isSome = true →
      needle <:+: s2 by
    exact hs hay 0 h
  intro s2
  induction s2 with
  | nil =>
      intro i hi
      by_cases hn : needle = []
      · subst hn
        exact List.nil_infix
      · simp [findSubAux, hn] at hi
  | cons a s2h ih =>
      intro i hi
      simp only [findSubAux] at hi
      by_cases hp : List.isPrefixOf needle (a :: s2h) = true
      · exact (List.isPrefixOf_iff_prefix.mp hp).isInfix
      · rw [if_neg hp] at hi
        exact List.infix_cons (ih (i + 1) hi)

theorem intercalate_append_sep :
    ∀ (X Y : List Str), X ≠ [] → Y ≠ [] →
      List.intercalate ['\n'] (X ++ Y) =
        List.intercalate ['\n'] X ++ '\n' :: List.intercalate ['\n'] Y := by
  intro X
  induction X with
  | nil => intro Y h; exact absurd rfl h
  | cons x xs ih =>
      intro Y hx hy
      cases xs with
      | nil =>
          cases Y with
          | nil => exact absurd rfl hy
          | cons y ys =>
              rw [List.singleton_append, intercalate_cons_cons]
              congr 1
              simp [List.intercalate, List.intersperse]
      | cons x2 t =>
          calc List.intercalate ['\n'] ((x :: x2 :: t) ++ Y)
              = x ++ '\n' :: List.intercalate ['\n'] ((x2 :: t) ++ Y) :=
                intercalate_cons_cons x x2 (t ++ Y)
            _ = x ++ '\n' :: (List.intercalate ['\n'] (x2 :: t) ++
                  '\n' :: List.intercalate ['\n'] Y) := by
                rw [ih Y (by simp) hy]
            _ = List.intercalate ['\n'] (x :: x2 :: t) ++
                  '\n' :: List.intercalate ['\n'] Y := by
                rw [intercalate_cons_cons]
                simp

theorem goodItems_all_itemOk :
    ∀ (items : List TopItem), goodItems items = true → ∀ i ∈ items, itemOk i = true := by
  intro items
  induction items with
  | nil => intro hg i hi; cases hi
  | cons j rest ih =>
      intro hg i hi
      obtain ⟨hok, hgr⟩ := goodItems_cons j rest hg
      rcases List.mem_cons.mp hi with rfl | hi'
      · exact hok
      · exact ih hgr i hi'

theorem itemOk_lines_no_newline (i : TopItem) (hok : itemOk i = true) :
    ∀ l ∈ itemLines i, '\n' ∉ l := by
  cases i with
  | defn nm leading header body =>
      simp only [itemOk, Bool.and_eq_true, Bool.not_eq_true'] at hok
      intro l hl
      simp only [itemLines, List.mem_append, List.mem_cons] at hl
      rcases hl with hl | rfl | hl
      · have := List.all_eq_true.mp hok.1.1.1.1.1 l hl
        simp only [goodLeadLine, Bool.and_eq_true, Bool.not_eq_true'] at this
        intro hm
        exact absurd hm (by simpa using this.1.1)
      · intro hm
        exact absurd hm (by simpa using hok.1.1.1.1.2)
      · have := List.all_eq_true.mp hok.2 l hl
        simp only [goodBodyLine, Bool.and_eq_true, Bool.not_eq_true'] at this
        intro hm
        exact absurd hm (by simpa using this.1)
  | stmt leading line =>
      simp only [itemOk, Bool.and_eq_true, Bool.not_eq_true'] at hok
      intro l hl
      simp only [itemLines, List.mem_append, List.mem_singleton] at hl
      rcases hl with hl | rfl
      · have := List.all_eq_true.mp hok.1.1.1.1 l hl
        simp only [goodLeadLine, Bool.and_eq_true, Bool.not_eq_true'] at this
        intro hm
        exact absurd hm (by simpa using this.1.1)
      · intro hm
        exact absurd hm (by simpa using hok.1.1.1.2)
  | footer ls =>
      simp only [itemOk, Bool.and_eq_true, Bool.not_eq_true'] at hok
      intro l hl
      simp only [itemLines] at hl
      have := List.all_eq_true.mp hok.2 l hl
      simp only [goodLeadLine, Bool.and_eq_true, Bool.not_eq_true'] at this
      intro hm
      exact absurd hm (by simpa using this.1.1)

theorem remove_definitions_cst_eq (items : List TopItem) (names : List Str)
    (hg : goodItems items = true) (hne : items ≠ []) :
    remove_definitions_cst (renderItems items) names =
      renderItems (filterItems names items) := by
  have hsplit : pySplit (renderItems items) ['\n'] = (items.map itemLines).flatten := by
    refine pySplit_intercalate _ ?_ ?_
    · rcases items with _ | ⟨i, rest⟩
      · exact absurd rfl hne
      · rcases goodItems_head_not_indented (i :: rest) hg with h0 | ⟨h, t, heq, -⟩
        · cases i with
          | defn nm leading header body => simp [itemLines] at h0
          | stmt leading line => simp [itemLines] at h0
          | footer ls =>
              obtain ⟨hok, -⟩ := goodItems_cons _ _ hg
              simp only [itemOk, Bool.and_eq_true, Bool.not_eq_true'] at hok
              simp only [List.map_cons, List.flatten_cons, itemLines,
                List.append_eq_nil] at h0
              rw [h0.1] at hok
              simp at hok
        · rw [heq]
          simp
    · intro l hl
      simp only [List.mem_flatten, List.mem_map] at hl
      obtain ⟨ls, ⟨i, hi, rfl⟩, hl2⟩ := hl
      exact itemOk_lines_no_newline i (goodItems_all_itemOk items hg i hi) l hl2
  rw [remove_definitions_cst, hsplit,
    show parseItems ((items.map itemLines).flatten) =
      parseItemsP [] ((items.map itemLines).flatten) from rfl,
    parse_render_round items hg]

theorem renderItems_contains_item (items' : List TopItem) (i : TopItem)
    (hmem : i ∈ items') (hne : itemLines i ≠ []) :
    containsSub (renderItems items') (List.intercalate ['\n'] (itemLines i)) = true := by
  refine containsSub_of_infix _ _ ?_
  obtain ⟨s, t, rfl⟩ := List.append_of_mem hmem
  have hflat : ((s ++ i :: t).map itemLines).flatten =
      (s.map itemLines).flatten ++ (itemLines i ++ (t.map itemLines).flatten) := by
    simp
  rw [renderItems, hflat]
  by_cases hF1 : (s.map itemLines).flatten = []
  · rw [hF1, List.nil_append]
    by_cases hF2 : (t.map itemLines).flatten = []
    · rw [hF2, List.append_nil]
    · rw [intercalate_append_sep _ _ hne hF2]
      exact ⟨[], '\n' :: List.intercalate ['\n'] ((t.map itemLines).flatten), by simp⟩
  · by_cases hF2 : (t.map itemLines).flatten = []
    · rw [hF2, List.append_nil, intercalate_append_sep _ _ hF1 hne]
      exact ⟨List.intercalate ['\n'] ((s.map itemLines).flatten) ++ ['\n'], [], by simp⟩
    · rw [intercalate_append_sep _ _ hF1 (by simp [hne]),
        intercalate_append_sep _ _ hne hF2]
      exact ⟨List.intercalate ['\n'] ((s.map itemLines).flatten) ++ ['\n'],
        '\n' :: List.intercalate ['\n'] ((t.map itemLines).flatten), by simp⟩

/-- Counterexample to C5 as stated: for the abstract-tree engine
(`delete_definitions`), deleting an absent name is NOT a no-op (the
canonical unparser drops the comment and the trailing newline), and
deleting `foo` does NOT leave `bar`'s original span byte-for-byte unchanged
(bar's trailing comment is dropped). -/
theorem delete_definitions_not_noop :
    delete_definitions "# note\ndef bar():\n    return 1\n".toList ["foo".toList] ≠
      "# note\ndef bar():\n    return 1\n".toList ∧
    containsSub
      (delete_definitions
        "def foo():\n    pass\ndef bar():\n    return 1  # keep\n".toList ["foo".toList])
      "def bar():\n    return 1  # keep".toList = false := by
  refine ⟨by decide, by decide⟩

/-- **C5 (amended).** For the format-preserving engine
(`remove_definitions_cst`): deletion removes exactly the named definitions'
spans, every retained definition's original span (leading lines, header and
body) survives byte-for-byte, and deleting a name set with no matching
definition returns the source unchanged.  For the abstract-tree engine
(`delete_definitions`) only the empty-name-set deletion is guaranteed to
return the source unchanged; any other deletion re-renders through the
canonical unparser. -/
theorem definition_deletion_engines :
    (∀ (items : List TopItem) (names : List Str), goodItems items = true → items ≠ [] →
        remove_definitions_cst (renderItems items) names =
          renderItems (filterItems names items)) ∧
    (∀ (items : List TopItem) (names : List Str), goodItems items = true → items ≠ [] →
        (∀ nm leading header body, TopItem.defn nm leading header body ∈ items →
          nm ∉ names) →
        remove_definitions_cst (renderItems items) names = renderItems items) ∧
    (∀ (items : List TopItem) (names : List Str) (nm : Str) (leading : List Str)
        (header : Str) (body : List Str), goodItems items = true → items ≠ [] →
        TopItem.defn nm leading header body ∈ items → nm ∉ names →
        containsSub (remove_definitions_cst (renderItems items) names)
          (List.intercalate ['\n'] (leading ++ header :: body)) = true) ∧
    (∀ source : Str, delete_definitions source [] = source) := by
  refine ⟨?_, ?_, ?_, ?_⟩
  · intro items names hg hne
    exact remove_definitions_cst_eq items names hg hne
  · intro items names hg hne habs
    rw [remove_definitions_cst_eq items names hg hne]
    congr 1
    refine List.filter_eq_self.mpr ?_
    intro i hi
    cases i with
    | defn nm leading header body =>
        simpa using habs nm leading header body hi
    | stmt leading line => rfl
    | footer ls => rfl
  · intro items names nm leading header body hg hne hmem hkeep
    rw [remove_definitions_cst_eq items names hg hne]
    have hspan : itemLines (TopItem.defn nm leading header body) =
        leading ++ header :: body := rfl
    rw [← hspan]
    refine renderItems_contains_item _ _ ?_ ?_
    · exact List.mem_filter.mpr ⟨hmem, by simpa using hkeep⟩
    · rw [hspan]
      simp
  · intro source
    simp [delete_definitions]

def c5items : List TopItem :=
  [TopItem.defn "foo".toList [] "def foo():".toList ["    pass".toList],
   TopItem.defn "bar".toList [] "def bar():".toList ["    return 1".toList],
   TopItem.footer [[]]]

/-- Witness for C5 (amended): deleting `foo` from a module with `foo` and
`bar` keeps `bar`'s span byte-for-byte. -/
theorem definition_deletion_engines_witness :
    containsSub (remove_definitions_cst (renderItems c5items) ["foo".toList])
      (List.intercalate ['\n'] ([] ++ "def bar():".toList :: ["    return 1".toList])) =
      true :=
  definition_deletion_engines.2.2.1 c5items ["foo".toList] "bar".toList []
    "def bar():".toList ["    return 1".toList] (by decide) (by decide) (by decide)
    (by decide)
